import Mathlib

/-!
Verification of the message pool
(`rs/replicated_state/src/canister_state/queues/message_pool.rs`).

The pool owns in-flight inter-canister messages, assigns each a fresh
`MessageId` from a monotonic counter, and maintains two lazy-deletion
priority queues: a deadline queue (earliest deadline pops first, ties
broken by message id) and a load-shedding queue (largest message pops
first, ties broken by message id).

Machine integers (`u64` ids, `usize` sizes) are modelled as `Nat`; the
values involved never approach the wrap-around points in any statement
below. Rust's `BinaryHeap` is modelled by a list kept sorted in pop
order (head = next element popped); since each id is pushed at most once
into each queue, all entries are distinct and this captures the heap's
observable peek/pop/retain behaviour exactly.
-/

namespace MessagePoolModel

/-- Modelled from the spec: the message payload type (`RequestOrResponse`
from `ic_types`, not under `src/`) is "a tagged value, one of Request or
Response". -/
inductive MsgKind where
  | request
  | response
deriving DecidableEq, Repr

/-- Modelled from the spec: a message carries "a byte size (computed once,
immutable thereafter), a best-effort flag, and an associated deadline, which
is either a concrete coarse-grained timestamp or a sentinel meaning `does
not expire`". The sentinel is `none`; coarse timestamps are `Nat` seconds
(the spec's §6 has callers supply `now` "already floored to the structure's
coarse time granularity", so flooring is the identity here). The best-effort
flag is determined by the deadline: a message is best-effort iff its own
deadline is concrete (guaranteed-response messages carry the sentinel). -/
structure Message where
  kind : MsgKind
  deadline : Option Nat
  size : Nat
deriving DecidableEq, Repr

/-- `RequestOrResponse::is_best_effort`: a message is best-effort iff its
deadline is not the no-expiry sentinel. -/
def Message.isBestEffort (m : Message) : Bool :=
  m.deadline.isSome

/-- `MessagePoolReference`: a kind-tagged handle to a pooled message. -/
inductive MessagePoolReference where
  | request (id : Nat)
  | response (id : Nat)
deriving DecidableEq, Repr

/-- `MessagePoolReference::id`. -/
def MessagePoolReference.id : MessagePoolReference → Nat
  | .request i => i
  | .response i => i

/-- Lookup in the message store (models `BTreeMap::get`). -/
def mlookup (ms : List (Nat × Message)) (id : Nat) : Option Message :=
  (ms.find? (fun e => e.1 == id)).map Prod.snd

/-- Removal from the message store (models `BTreeMap::remove`; keys are
unique on reachable states, so filtering removes the single entry). -/
def mremove (ms : List (Nat × Message)) (id : Nat) : List (Nat × Message) :=
  ms.filter (fun e => e.1 != id)

/-- Sum of the byte sizes of all stored messages. -/
def sumSizes (ms : List (Nat × Message)) : Nat :=
  (ms.map (fun e => e.2.size)).sum

/-- Pop-priority of the deadline queue, modelling
`BinaryHeap<(Reverse<CoarseTime>, MessageId)>`: `a` pops no later than `b`
iff `a`'s deadline is smaller, or deadlines are equal and `a`'s id is at
least `b`'s (the max-heap pops the largest tuple, i.e. the smallest
deadline and, among equal deadlines, the largest id). -/
def dqLEb (a b : Nat × Nat) : Bool :=
  a.1 < b.1 || (a.1 == b.1 && b.2 ≤ a.2)

/-- Pop-priority of the load-shedding queue, modelling
`BinaryHeap<(usize, MessageId)>`: largest size first, ties broken by the
larger id. -/
def sqLEb (a b : Nat × Nat) : Bool :=
  b.1 < a.1 || (a.1 == b.1 && b.2 ≤ a.2)

/-- Ordered insertion keeping a queue sorted in pop order (head pops
first); models `BinaryHeap::push` at the level of observable behaviour. -/
def pushBy (le : Nat × Nat → Nat × Nat → Bool) (e : Nat × Nat) :
    List (Nat × Nat) → List (Nat × Nat)
  | [] => [e]
  | x :: xs => if le e x then e :: x :: xs else x :: pushBy le e xs

/-- `MessagePool`: the message store, the running byte total, the two
priority queues (kept in pop order), and the id counter.

`placeholders` is a ghost field: it records the ids of issued but not yet
consumed `ResponsePlaceholder` tokens, which the Rust code tracks through
affine ownership (the placeholder type is not `Clone`/`Copy`) rather than
in the pool struct itself. -/
structure MessagePool where
  messages : List (Nat × Message)
  size_bytes : Nat
  deadline_queue : List (Nat × Nat)
  size_queue : List (Nat × Nat)
  next_message_id : Nat
  placeholders : List Nat
deriving DecidableEq, Repr

namespace MessagePool

/-- `Default for MessagePool`: empty pool, id counter at zero. -/
def default : MessagePool :=
  { messages := []
    size_bytes := 0
    deadline_queue := []
    size_queue := []
    next_message_id := 0
    placeholders := [] }

/-- `next_message_id`: returns the current counter value and bumps it. -/
def allocId (p : MessagePool) : MessagePool × Nat :=
  ({ p with next_message_id := p.next_message_id + 1 }, p.next_message_id)

/-- `insert_impl`: allocate an id, store the message, add its size to the
running total, record it in the deadline queue iff the provided `deadline`
is not the sentinel, and in the load-shedding queue iff it is a
best-effort message. -/
def insert_impl (p : MessagePool) (msg : Message) (deadline : Option Nat) :
    MessagePool × Nat :=
  let pid := p.allocId
  let p1 := pid.1
  let id := pid.2
  ({ p1 with
      messages := p1.messages ++ [(id, msg)]
      size_bytes := p1.size_bytes + msg.size
      deadline_queue :=
        match deadline with
        | some d => pushBy dqLEb (d, id) p1.deadline_queue
        | none => p1.deadline_queue
      size_queue :=
        if msg.isBestEffort then pushBy sqLEb (msg.size, id) p1.size_queue
        else p1.size_queue },
    id)

/-- `insert_inbound`: requests keep their own deadline; responses already
in an input queue never expire, so they are recorded with the sentinel. -/
def insert_inbound (p : MessagePool) (msg : Message) : MessagePool × Nat :=
  let deadline :=
    match msg.kind with
    | .request => msg.deadline
    | .response => none
  p.insert_impl msg deadline

/-- `insert_outbound_request`: a best-effort request keeps its own
deadline; a guaranteed-response call request (sentinel deadline) is
recorded with deadline `now + ttl`. `ttl` models `REQUEST_LIFETIME`, a
constant of the surrounding crate that is not under `src/`; per the spec
it is "a fixed constant of the surrounding execution environment" supplied
by the queueing layer. -/
def insert_outbound_request (p : MessagePool) (req : Message) (now ttl : Nat) :
    MessagePool × Nat :=
  let deadline :=
    match req.deadline with
    | none => some (now + ttl)
    | some d => some d
  p.insert_impl req deadline

/-- `insert_outbound_response`: recorded with the response's own
deadline. -/
def insert_outbound_response (p : MessagePool) (rep : Message) :
    MessagePool × Nat :=
  p.insert_impl rep rep.deadline

/-- `insert_inbound_timeout_response`: reserve a placeholder — allocate a
fresh id, store nothing, touch no queue. The ghost `placeholders` field
records the outstanding token. -/
def insert_inbound_timeout_response (p : MessagePool) : MessagePool × Nat :=
  let pid := p.allocId
  ({ pid.1 with placeholders := pid.1.placeholders ++ [pid.2] }, pid.2)

/-- `replace_inbound_timeout_response`: fulfill a placeholder. Panics
(modelled as `none`) unless the message is a best-effort response;
otherwise stores the message under the placeholder's id, adds its size to
the running total, and records it in the load-shedding queue only. -/
def replace_inbound_timeout_response (p : MessagePool) (id : Nat)
    (msg : Message) : Option MessagePool :=
  match msg.kind, msg.deadline with
  | .response, some _ =>
    some { p with
      messages := p.messages ++ [(id, msg)]
      size_bytes := p.size_bytes + msg.size
      size_queue := pushBy sqLEb (msg.size, id) p.size_queue
      placeholders := p.placeholders.filter (fun x => x != id) }
  | _, _ => none

/-- `get_request`: the stored message, only if present and a request. -/
def get_request (p : MessagePool) (id : Nat) : Option Message :=
  match mlookup p.messages id with
  | some m =>
    match m.kind with
    | .request => some m
    | .response => none
  | none => none

/-- `get_response`: the stored message, only if present and a response. -/
def get_response (p : MessagePool) (id : Nat) : Option Message :=
  match mlookup p.messages id with
  | some m =>
    match m.kind with
    | .response => some m
    | .request => none
  | none => none

/-- `maybe_trim_queues`: rebuild either priority queue, keeping only
entries whose id is still stored, when its length exceeds
`2 * len + 2`. -/
def maybe_trim_queues (p : MessagePool) : MessagePool :=
  let len := p.messages.length
  { p with
    deadline_queue :=
      if 2 * len + 2 < p.deadline_queue.length then
        p.deadline_queue.filter (fun e => (mlookup p.messages e.2).isSome)
      else p.deadline_queue
    size_queue :=
      if 2 * len + 2 < p.size_queue.length then
        p.size_queue.filter (fun e => (mlookup p.messages e.2).isSome)
      else p.size_queue }

/-- `take`: remove by reference; returns the message only if present and
of the matching kind, leaving the pool unchanged otherwise. Trims the
queues on success. -/
def take (p : MessagePool) (r : MessagePoolReference) :
    MessagePool × Option Message :=
  match mlookup p.messages r.id with
  | none => (p, none)
  | some m =>
    match r, m.kind with
    | .request _, .request =>
      (({ p with
            messages := mremove p.messages r.id
            size_bytes := p.size_bytes - m.size }).maybe_trim_queues,
        some m)
    | .response _, .response =>
      (({ p with
            messages := mremove p.messages r.id
            size_bytes := p.size_bytes - m.size }).maybe_trim_queues,
        some m)
    | _, _ => (p, none)

/-- `has_expired_deadlines`: true iff the earliest deadline-queue entry is
strictly below `now`. -/
def has_expired_deadlines (p : MessagePool) (now : Nat) : Bool :=
  match p.deadline_queue with
  | (d, _) :: _ => d < now
  | [] => false

end MessagePool

/-- Intermediate state of the `expire_messages` loop. -/
structure ExpireSt where
  dq : List (Nat × Nat)
  ms : List (Nat × Message)
  sz : Nat
  ex : List (Nat × Message)
deriving Repr

/-- The `expire_messages` loop: pop deadline-queue entries while the head
deadline is `< now`; a popped id still in the store is removed (with its
size subtracted) and appended to the expired list; a stale id is skipped
silently. -/
def expireLoop (now : Nat) (dq : List (Nat × Nat)) (ms : List (Nat × Message))
    (sz : Nat) : ExpireSt :=
  match dq with
  | [] => ⟨[], ms, sz, []⟩
  | (d, id) :: rest =>
    if now ≤ d then ⟨(d, id) :: rest, ms, sz, []⟩
    else
      match mlookup ms id with
      | some m =>
        let r := expireLoop now rest (mremove ms id) (sz - m.size)
        ⟨r.dq, r.ms, r.sz, (id, m) :: r.ex⟩
      | none => expireLoop now rest ms sz

namespace MessagePool

/-- `expire_messages`: returns immediately when the deadline queue is
empty; otherwise runs the expiration loop and trims the queues. -/
def expire_messages (p : MessagePool) (now : Nat) :
    MessagePool × List (Nat × Message) :=
  match p.deadline_queue with
  | [] => (p, [])
  | _ =>
    let r := expireLoop now p.deadline_queue p.messages p.size_bytes
    (({ p with
          deadline_queue := r.dq
          messages := r.ms
          size_bytes := r.sz }).maybe_trim_queues,
      r.ex)

end MessagePool

/-- Intermediate state of the `shed_largest_message` loop. -/
structure ShedSt where
  sq : List (Nat × Nat)
  ms : List (Nat × Message)
  sz : Nat
  res : Option (Nat × Message)
deriving Repr

/-- The `shed_largest_message` loop: pop load-shedding entries until one
refers to a stored message; remove that message, or return nothing when
the queue is exhausted. -/
def shedLoop (sq : List (Nat × Nat)) (ms : List (Nat × Message)) (sz : Nat) :
    ShedSt :=
  match sq with
  | [] => ⟨[], ms, sz, none⟩
  | (_, id) :: rest =>
    match mlookup ms id with
    | some m => ⟨rest, mremove ms id, sz - m.size, some (id, m)⟩
    | none => shedLoop rest ms sz

namespace MessagePool

/-- `shed_largest_message`: run the shedding loop; trim the queues iff a
message was actually shed. -/
def shed_largest_message (p : MessagePool) :
    MessagePool × Option (Nat × Message) :=
  let r := shedLoop p.size_queue p.messages p.size_bytes
  let p1 := { p with
    size_queue := r.sq
    messages := r.ms
    size_bytes := r.sz }
  match r.res with
  | some x => (p1.maybe_trim_queues, some x)
  | none => (p1, none)

/-- `len`: number of messages in the pool. -/
def len (p : MessagePool) : Nat :=
  p.messages.length

/-- `calculate_size_bytes`: recompute the byte total from scratch. -/
def calculate_size_bytes (p : MessagePool) : Nat :=
  sumSizes p.messages

/-- The deadline recorded for `id` in the deadline queue (the deadline
captured at insertion), if any. On reachable states each id has at most
one entry. -/
def recordedDeadline (p : MessagePool) (id : Nat) : Option Nat :=
  (p.deadline_queue.find? (fun e => e.2 == id)).map Prod.fst

end MessagePool

/-- Fuel-indexed iteration of `shed_largest_message`: keep shedding until
nothing is returned, collecting the shed messages in order. The fuel only
serves termination; `shedAll` supplies enough of it. -/
def shedAllAux : Nat → MessagePool → MessagePool × List (Nat × Message)
  | 0, p => (p, [])
  | fuel + 1, p =>
    match p.shed_largest_message with
    | (p', some x) =>
      let r := shedAllAux fuel p'
      (r.1, x :: r.2)
    | (p', none) => (p', [])

/-- Repeated shedding until `shed_largest_message` returns nothing. Each
successful shed pops at least one load-shedding queue entry and trimming
only shrinks the queue, so `p.size_queue.length` rounds of fuel always
suffice. -/
def MessagePool.shedAll (p : MessagePool) : MessagePool × List (Nat × Message) :=
  shedAllAux p.size_queue.length p

/-- The states reachable from the empty pool by the public operations.
The `fulfill` rule consumes an outstanding placeholder token, mirroring
the affine ownership of `ResponsePlaceholder` in the Rust code. -/
inductive Reachable : MessagePool → Prop where
  | init : Reachable MessagePool.default
  | insert_inbound {p : MessagePool} (msg : Message) :
      Reachable p → Reachable (p.insert_inbound msg).1
  | insert_outbound_request {p : MessagePool} (req : Message) (now ttl : Nat) :
      Reachable p → req.kind = .request →
      Reachable (p.insert_outbound_request req now ttl).1
  | insert_outbound_response {p : MessagePool} (rep : Message) :
      Reachable p → rep.kind = .response →
      Reachable (p.insert_outbound_response rep).1
  | reserve {p : MessagePool} :
      Reachable p → Reachable p.insert_inbound_timeout_response.1
  | fulfill {p p' : MessagePool} (id : Nat) (msg : Message) :
      Reachable p → id ∈ p.placeholders →
      p.replace_inbound_timeout_response id msg = some p' → Reachable p'
  | take {p : MessagePool} (r : MessagePoolReference) :
      Reachable p → Reachable (p.take r).1
  | expire {p : MessagePool} (now : Nat) :
      Reachable p → Reachable (p.expire_messages now).1
  | shed {p : MessagePool} :
      Reachable p → Reachable p.shed_largest_message.1

/-- The structural invariant of the pool, except for the compaction
bounds: message keys are unique and below the id counter, as are the ids
in each priority queue and the outstanding placeholder ids; the byte total
matches the store; each queue is sorted in pop order and mentions each id
at most once; a live load-shedding entry records the exact size of a
best-effort message; every stored best-effort message has a load-shedding
entry; placeholder ids are absent from the store and both queues. -/
structure PoolInvCore (p : MessagePool) : Prop where
  keys_nodup : (p.messages.map Prod.fst).Nodup
  keys_lt : ∀ id ∈ p.messages.map Prod.fst, id < p.next_message_id
  ph_nodup : p.placeholders.Nodup
  ph_lt : ∀ id ∈ p.placeholders, id < p.next_message_id
  ph_fresh_store : ∀ id ∈ p.placeholders, id ∉ p.messages.map Prod.fst
  ph_fresh_dq : ∀ id ∈ p.placeholders, id ∉ p.deadline_queue.map Prod.snd
  ph_fresh_sq : ∀ id ∈ p.placeholders, id ∉ p.size_queue.map Prod.snd
  size_ok : p.size_bytes = sumSizes p.messages
  dq_lt : ∀ id ∈ p.deadline_queue.map Prod.snd, id < p.next_message_id
  sq_lt : ∀ id ∈ p.size_queue.map Prod.snd, id < p.next_message_id
  dq_nodup : (p.deadline_queue.map Prod.snd).Nodup
  sq_nodup : (p.size_queue.map Prod.snd).Nodup
  dq_sorted : p.deadline_queue.Pairwise (fun a b => dqLEb a b = true)
  sq_sorted : p.size_queue.Pairwise (fun a b => sqLEb a b = true)
  sq_live : ∀ e ∈ p.size_queue, ∀ m, mlookup p.messages e.2 = some m →
    m.isBestEffort = true ∧ m.size = e.1
  be_in_sq : ∀ e ∈ p.messages, e.2.isBestEffort = true →
    e.1 ∈ p.size_queue.map Prod.snd

/-- The full invariant: the structural invariant plus the compaction
bounds on the two priority queues. -/
structure PoolInv (p : MessagePool) extends PoolInvCore p : Prop where
  dq_bound : p.deadline_queue.length ≤ 2 * p.messages.length + 2
  sq_bound : p.size_queue.length ≤ 2 * p.messages.length + 2

end MessagePoolModel

namespace MessagePoolModel

/-! ### Message store lemmas -/

theorem mlookup_nil {id : Nat} : mlookup [] id = none := rfl

theorem mlookup_cons_self {a : Nat} {b : Message} {rest : List (Nat × Message)} :
    mlookup ((a, b) :: rest) a = some b := by
  simp [mlookup, List.find?]

theorem mlookup_cons_ne {a j : Nat} {b : Message} {rest : List (Nat × Message)}
    (h : j ≠ a) : mlookup ((a, b) :: rest) j = mlookup rest j := by
  have : (a == j) = false := by
    simp only [beq_eq_false_iff_ne, ne_eq]
    omega
  simp [mlookup, List.find?, this]

theorem mremove_cons_self {a id : Nat} {b : Message}
    {rest : List (Nat × Message)} (h : a = id) :
    mremove ((a, b) :: rest) id = mremove rest id := by
  apply List.filter_cons_of_neg
  simp [h]

theorem mremove_cons_ne {a id : Nat} {b : Message}
    {rest : List (Nat × Message)} (h : a ≠ id) :
    mremove ((a, b) :: rest) id = (a, b) :: mremove rest id := by
  apply List.filter_cons_of_pos
  simp [h]

theorem mlookup_eq_none_iff {ms : List (Nat × Message)} {id : Nat} :
    mlookup ms id = none ↔ id ∉ ms.map Prod.fst := by
  induction ms with
  | nil => simp [mlookup]
  | cons e rest ih =>
    obtain ⟨a, b⟩ := e
    by_cases h : id = a
    · subst h
      simp [mlookup_cons_self]
    · rw [mlookup_cons_ne h, ih]
      simp only [List.map_cons, List.mem_cons]
      constructor
      · intro hn hc
        rcases hc with hc | hc
        · exact h hc
        · exact hn hc
      · intro hn hc
        exact hn (Or.inr hc)

theorem mem_of_mlookup_eq_some {ms : List (Nat × Message)} {id : Nat}
    {m : Message} (h : mlookup ms id = some m) : (id, m) ∈ ms := by
  induction ms with
  | nil => simp [mlookup] at h
  | cons e rest ih =>
    obtain ⟨a, b⟩ := e
    by_cases hid : id = a
    · subst hid
      rw [mlookup_cons_self] at h
      cases h
      exact List.mem_cons_self _ _
    · rw [mlookup_cons_ne hid] at h
      exact List.mem_cons_of_mem _ (ih h)

theorem mlookup_eq_some_of_mem {ms : List (Nat × Message)} {id : Nat}
    {m : Message} (hnd : (ms.map Prod.fst).Nodup) (h : (id, m) ∈ ms) :
    mlookup ms id = some m := by
  induction ms with
  | nil => simp at h
  | cons e rest ih =>
    obtain ⟨a, b⟩ := e
    simp only [List.map_cons, List.nodup_cons] at hnd
    rcases List.mem_cons.mp h with heq | hmem
    · cases heq
      exact mlookup_cons_self
    · have hne : id ≠ a := by
        intro hc
        subst hc
        exact hnd.1 (List.mem_map.mpr ⟨(id, m), hmem, rfl⟩)
      rw [mlookup_cons_ne hne]
      exact ih hnd.2 hmem

theorem mlookup_eq_some_iff {ms : List (Nat × Message)} {id : Nat}
    {m : Message} (hnd : (ms.map Prod.fst).Nodup) :
    mlookup ms id = some m ↔ (id, m) ∈ ms :=
  ⟨mem_of_mlookup_eq_some, mlookup_eq_some_of_mem hnd⟩

theorem mlookup_isSome_iff {ms : List (Nat × Message)} {id : Nat} :
    (mlookup ms id).isSome = true ↔ id ∈ ms.map Prod.fst := by
  cases h : mlookup ms id with
  | none => simpa using mlookup_eq_none_iff.mp h
  | some m =>
    simp only [Option.isSome_some, true_iff]
    exact List.mem_map.mpr ⟨(id, m), mem_of_mlookup_eq_some h, rfl⟩

theorem mem_mremove_iff {ms : List (Nat × Message)} {id j : Nat} {m : Message} :
    (j, m) ∈ mremove ms id ↔ (j, m) ∈ ms ∧ j ≠ id := by
  simp [mremove, List.mem_filter]

theorem mremove_sublist (ms : List (Nat × Message)) (id : Nat) :
    List.Sublist (mremove ms id) ms :=
  List.filter_sublist ms

theorem mremove_of_not_mem {ms : List (Nat × Message)} {id : Nat}
    (h : id ∉ ms.map Prod.fst) : mremove ms id = ms := by
  apply List.filter_eq_self.mpr
  intro e he
  simp only [bne_iff_ne, ne_eq, decide_eq_true_eq]
  intro hfst
  exact h (List.mem_map.mpr ⟨e, he, hfst⟩)

theorem mlookup_mremove {ms : List (Nat × Message)} {id j : Nat} :
    mlookup (mremove ms id) j = if j = id then none else mlookup ms j := by
  induction ms with
  | nil => simp [mremove, mlookup]
  | cons e rest ih =>
    obtain ⟨a, b⟩ := e
    by_cases ha : a = id
    · rw [mremove_cons_self ha, ih]
      by_cases hj : j = id
      · simp [hj]
      · have : j ≠ a := by omega
        simp [hj, mlookup_cons_ne this]
    · rw [mremove_cons_ne ha]
      by_cases hja : j = a
      · subst hja
        have : j ≠ id := by omega
        simp [this, mlookup_cons_self]
      · rw [mlookup_cons_ne hja, ih]
        by_cases hj : j = id
        · simp [hj]
        · simp [hj, mlookup_cons_ne hja]

theorem perm_mremove {ms : List (Nat × Message)} {id : Nat} {m : Message}
    (hnd : (ms.map Prod.fst).Nodup) (h : mlookup ms id = some m) :
    ms.Perm ((id, m) :: mremove ms id) := by
  induction ms with
  | nil => simp [mlookup] at h
  | cons e rest ih =>
    obtain ⟨a, b⟩ := e
    simp only [List.map_cons, List.nodup_cons] at hnd
    by_cases hid : id = a
    · subst hid
      rw [mlookup_cons_self] at h
      cases h
      rw [mremove_cons_self rfl, mremove_of_not_mem (by
        intro hc
        obtain ⟨x, hx, hfst⟩ := List.mem_map.mp hc
        exact hnd.1 (List.mem_map.mpr ⟨x, hx, hfst⟩))]
    · rw [mlookup_cons_ne hid] at h
      rw [mremove_cons_ne (by omega)]
      refine List.Perm.trans ((ih hnd.2 h).cons (a, b)) ?_
      exact List.Perm.swap _ _ _

theorem length_mremove {ms : List (Nat × Message)} {id : Nat} {m : Message}
    (hnd : (ms.map Prod.fst).Nodup) (h : mlookup ms id = some m) :
    (mremove ms id).length + 1 = ms.length := by
  have := (perm_mremove hnd h).length_eq
  simpa using this.symm

theorem sumSizes_append (l1 l2 : List (Nat × Message)) :
    sumSizes (l1 ++ l2) = sumSizes l1 + sumSizes l2 := by
  simp [sumSizes]

theorem sumSizes_mremove {ms : List (Nat × Message)} {id : Nat} {m : Message}
    (hnd : (ms.map Prod.fst).Nodup) (h : mlookup ms id = some m) :
    m.size + sumSizes (mremove ms id) = sumSizes ms := by
  have hp := (perm_mremove hnd h).map (fun e => e.2.size)
  have := hp.sum_eq
  simpa [sumSizes] using this.symm

theorem size_le_sumSizes {ms : List (Nat × Message)} {id : Nat} {m : Message}
    (hnd : (ms.map Prod.fst).Nodup) (h : mlookup ms id = some m) :
    m.size ≤ sumSizes ms := by
  have := sumSizes_mremove hnd h
  omega

theorem mlookup_append_ne {ms : List (Nat × Message)} {id j : Nat}
    {m : Message} (h : j ≠ id) :
    mlookup (ms ++ [(id, m)]) j = mlookup ms j := by
  induction ms with
  | nil =>
    simp only [List.nil_append, mlookup_nil]
    exact mlookup_cons_ne h
  | cons e rest ih =>
    obtain ⟨a, b⟩ := e
    by_cases hja : j = a
    · subst hja
      simp [mlookup_cons_self]
    · rw [List.cons_append, mlookup_cons_ne hja, mlookup_cons_ne hja]
      exact ih

theorem mlookup_append_self {ms : List (Nat × Message)} {id : Nat}
    {m : Message} (h : id ∉ ms.map Prod.fst) :
    mlookup (ms ++ [(id, m)]) id = some m := by
  induction ms with
  | nil => exact mlookup_cons_self
  | cons e rest ih =>
    obtain ⟨a, b⟩ := e
    simp only [List.map_cons, List.mem_cons, not_or] at h
    rw [List.cons_append, mlookup_cons_ne h.1]
    exact ih h.2

end MessagePoolModel

namespace MessagePoolModel

/-! ### Priority queue lemmas -/

theorem dqLEb_trans {a b c : Nat × Nat} (h1 : dqLEb a b = true)
    (h2 : dqLEb b c = true) : dqLEb a c = true := by
  simp only [dqLEb, Bool.or_eq_true, decide_eq_true_eq, Bool.and_eq_true,
    beq_iff_eq] at *
  omega

theorem dqLEb_total {a b : Nat × Nat} (h : dqLEb a b = false) :
    dqLEb b a = true := by
  simp only [dqLEb, Bool.or_eq_false_iff, Bool.or_eq_true, decide_eq_true_eq,
    decide_eq_false_iff_not, Bool.and_eq_true, Bool.and_eq_false_iff,
    beq_iff_eq, beq_eq_false_iff_ne, ne_eq] at *
  omega

theorem sqLEb_trans {a b c : Nat × Nat} (h1 : sqLEb a b = true)
    (h2 : sqLEb b c = true) : sqLEb a c = true := by
  simp only [sqLEb, Bool.or_eq_true, decide_eq_true_eq, Bool.and_eq_true,
    beq_iff_eq] at *
  omega

theorem sqLEb_total {a b : Nat × Nat} (h : sqLEb a b = false) :
    sqLEb b a = true := by
  simp only [sqLEb, Bool.or_eq_false_iff, Bool.or_eq_true, decide_eq_true_eq,
    decide_eq_false_iff_not, Bool.and_eq_true, Bool.and_eq_false_iff,
    beq_iff_eq, beq_eq_false_iff_ne, ne_eq] at *
  omega

theorem pushBy_perm (le : Nat × Nat → Nat × Nat → Bool) (e : Nat × Nat)
    (l : List (Nat × Nat)) : (pushBy le e l).Perm (e :: l) := by
  induction l with
  | nil => simp [pushBy]
  | cons x xs ih =>
    simp only [pushBy]
    by_cases h : le e x = true
    · simp [h]
    · rw [if_neg h]
      exact List.Perm.trans (ih.cons x) (List.Perm.swap _ _ _)

theorem mem_pushBy {le : Nat × Nat → Nat × Nat → Bool} {e x : Nat × Nat}
    {l : List (Nat × Nat)} : x ∈ pushBy le e l ↔ x = e ∨ x ∈ l := by
  have := (pushBy_perm le e l).mem_iff (a := x)
  simpa using this

theorem map_snd_pushBy_perm (le : Nat × Nat → Nat × Nat → Bool)
    (e : Nat × Nat) (l : List (Nat × Nat)) :
    ((pushBy le e l).map Prod.snd).Perm (e.2 :: l.map Prod.snd) :=
  (pushBy_perm le e l).map Prod.snd

theorem nodup_snd_pushBy {le : Nat × Nat → Nat × Nat → Bool} {e : Nat × Nat}
    {l : List (Nat × Nat)} (hnd : (l.map Prod.snd).Nodup)
    (hfresh : e.2 ∉ l.map Prod.snd) :
    ((pushBy le e l).map Prod.snd).Nodup := by
  apply (map_snd_pushBy_perm le e l).nodup_iff.mpr
  exact List.nodup_cons.mpr ⟨hfresh, hnd⟩

theorem pairwise_pushBy {le : Nat × Nat → Nat × Nat → Bool} {e : Nat × Nat}
    {l : List (Nat × Nat)}
    (htrans : ∀ a b c : Nat × Nat, le a b = true → le b c = true →
      le a c = true)
    (htot : ∀ a b : Nat × Nat, le a b = false → le b a = true)
    (hp : l.Pairwise (fun a b => le a b = true)) :
    (pushBy le e l).Pairwise (fun a b => le a b = true) := by
  induction l with
  | nil => simp [pushBy]
  | cons x xs ih =>
    rcases List.pairwise_cons.mp hp with ⟨hx, hxs⟩
    by_cases h : le e x = true
    · simp only [pushBy, h, if_pos]
      refine List.pairwise_cons.mpr ⟨?_, hp⟩
      intro y hy
      rcases List.mem_cons.mp hy with rfl | hy
      · exact h
      · exact htrans e x y h (hx y hy)
    · simp only [pushBy, h]
      rw [if_neg (by simp [h])]
      refine List.pairwise_cons.mpr ⟨?_, ih hxs⟩
      intro y hy
      rcases mem_pushBy.mp hy with hye | hy
      · rw [hye]
        exact htot e x (by simpa using h)
      · exact hx y hy

theorem pairwise_of_sublist {R : Nat × Nat → Nat × Nat → Prop}
    {l1 l2 : List (Nat × Nat)} (hs : List.Sublist l1 l2)
    (hp : l2.Pairwise R) : l1.Pairwise R :=
  hp.sublist hs

theorem nodup_snd_of_sublist {l1 l2 : List (Nat × Nat)}
    (hs : List.Sublist l1 l2) (hnd : (l2.map Prod.snd).Nodup) :
    (l1.map Prod.snd).Nodup :=
  hnd.sublist (hs.map Prod.snd)

/-- All entries surviving `dropWhile (deadline < now)` on a queue sorted in
pop order have deadlines `≥ now`. -/
theorem dropWhile_deadlines_ge {now : Nat} {dq : List (Nat × Nat)}
    (hp : dq.Pairwise (fun a b => dqLEb a b = true)) :
    ∀ x ∈ dq.dropWhile (fun e => decide (e.1 < now)), now ≤ x.1 := by
  induction dq with
  | nil => simp
  | cons h rest ih =>
    rcases List.pairwise_cons.mp hp with ⟨hh, hrest⟩
    by_cases hd : h.1 < now
    · rw [List.dropWhile_cons_of_pos (by simpa using hd)]
      exact ih hrest
    · rw [List.dropWhile_cons_of_neg (by simpa using hd)]
      intro x hx
      rcases List.mem_cons.mp hx with rfl | hx
      · omega
      · have := hh x hx
        simp only [dqLEb, Bool.or_eq_true, decide_eq_true_eq,
          Bool.and_eq_true, beq_iff_eq] at this
        omega

/-- On a queue sorted in pop order, an entry is in the
`takeWhile (deadline < now)` prefix iff it is in the queue with deadline
`< now`. -/
theorem mem_takeWhile_iff_sorted {now : Nat} {dq : List (Nat × Nat)}
    (hp : dq.Pairwise (fun a b => dqLEb a b = true)) {x : Nat × Nat} :
    x ∈ dq.takeWhile (fun e => decide (e.1 < now)) ↔ x ∈ dq ∧ x.1 < now := by
  constructor
  · intro h
    refine ⟨(List.takeWhile_sublist _).subset h, ?_⟩
    have := List.mem_takeWhile_imp h
    simpa using this
  · rintro ⟨hmem, hlt⟩
    have hsplit := List.takeWhile_append_dropWhile
      (p := fun e : Nat × Nat => decide (e.1 < now)) (l := dq)
    rw [← hsplit] at hmem
    rcases List.mem_append.mp hmem with h | h
    · exact h
    · have := dropWhile_deadlines_ge hp x h
      omega

end MessagePoolModel

namespace MessagePoolModel

/-! ### Compaction lemmas -/

theorem live_filter_length_le {q : List (Nat × Nat)} {ms : List (Nat × Message)}
    (hnd : (q.map Prod.snd).Nodup) :
    (q.filter (fun e => (mlookup ms e.2).isSome)).length ≤ ms.length := by
  have hsub : List.Sublist
      (q.filter (fun e => (mlookup ms e.2).isSome)) q := List.filter_sublist q
  have hnd' : ((q.filter (fun e => (mlookup ms e.2).isSome)).map
      Prod.snd).Nodup := nodup_snd_of_sublist hsub hnd
  have hss : (q.filter (fun e => (mlookup ms e.2).isSome)).map Prod.snd ⊆
      ms.map Prod.fst := by
    intro j hj
    obtain ⟨e, he, hsnd⟩ := List.mem_map.mp hj
    have hlive := (List.mem_filter.mp he).2
    rw [hsnd] at hlive
    exact mlookup_isSome_iff.mp (by simpa using hlive)
  have := (List.subperm_of_subset hnd' hss).length_le
  simpa using this

theorem maybe_trim_messages (p : MessagePool) :
    p.maybe_trim_queues.messages = p.messages := rfl

theorem maybe_trim_size_bytes (p : MessagePool) :
    p.maybe_trim_queues.size_bytes = p.size_bytes := rfl

theorem maybe_trim_next (p : MessagePool) :
    p.maybe_trim_queues.next_message_id = p.next_message_id := rfl

theorem maybe_trim_placeholders (p : MessagePool) :
    p.maybe_trim_queues.placeholders = p.placeholders := rfl

theorem maybe_trim_dq (p : MessagePool) :
    p.maybe_trim_queues.deadline_queue =
      if 2 * p.messages.length + 2 < p.deadline_queue.length then
        p.deadline_queue.filter (fun e => (mlookup p.messages e.2).isSome)
      else p.deadline_queue := rfl

theorem maybe_trim_sq (p : MessagePool) :
    p.maybe_trim_queues.size_queue =
      if 2 * p.messages.length + 2 < p.size_queue.length then
        p.size_queue.filter (fun e => (mlookup p.messages e.2).isSome)
      else p.size_queue := rfl

theorem maybe_trim_dq_sublist (p : MessagePool) :
    List.Sublist p.maybe_trim_queues.deadline_queue p.deadline_queue := by
  rw [maybe_trim_dq]
  split
  · exact List.filter_sublist _
  · exact List.Sublist.refl _

theorem maybe_trim_sq_sublist (p : MessagePool) :
    List.Sublist p.maybe_trim_queues.size_queue p.size_queue := by
  rw [maybe_trim_sq]
  split
  · exact List.filter_sublist _
  · exact List.Sublist.refl _

/-- Trimming restores the full invariant from the structural invariant:
whichever way each `if` in `maybe_trim_queues` resolves, the resulting
queue is within the compaction bound. -/
theorem pool_inv_maybe_trim {p : MessagePool} (h : PoolInvCore p) :
    PoolInv p.maybe_trim_queues := by
  have hdq := maybe_trim_dq_sublist p
  have hsq := maybe_trim_sq_sublist p
  refine ⟨⟨?_, ?_, ?_, ?_, ?_, ?_, ?_, ?_, ?_, ?_, ?_, ?_, ?_, ?_, ?_, ?_⟩,
    ?_, ?_⟩
  · rw [maybe_trim_messages]
    exact h.keys_nodup
  · rw [maybe_trim_messages, maybe_trim_next]
    exact h.keys_lt
  · rw [maybe_trim_placeholders]
    exact h.ph_nodup
  · rw [maybe_trim_placeholders, maybe_trim_next]
    exact h.ph_lt
  · rw [maybe_trim_placeholders, maybe_trim_messages]
    exact h.ph_fresh_store
  · rw [maybe_trim_placeholders]
    intro id hid hmem
    exact h.ph_fresh_dq id hid ((hdq.map Prod.snd).subset hmem)
  · rw [maybe_trim_placeholders]
    intro id hid hmem
    exact h.ph_fresh_sq id hid ((hsq.map Prod.snd).subset hmem)
  · rw [maybe_trim_size_bytes, maybe_trim_messages]
    exact h.size_ok
  · rw [maybe_trim_next]
    intro id hid
    exact h.dq_lt id ((hdq.map Prod.snd).subset hid)
  · rw [maybe_trim_next]
    intro id hid
    exact h.sq_lt id ((hsq.map Prod.snd).subset hid)
  · exact nodup_snd_of_sublist hdq h.dq_nodup
  · exact nodup_snd_of_sublist hsq h.sq_nodup
  · exact h.dq_sorted.sublist hdq
  · exact h.sq_sorted.sublist hsq
  · rw [maybe_trim_messages]
    intro e he m hm
    exact h.sq_live e (hsq.subset he) m hm
  · rw [maybe_trim_messages, maybe_trim_sq]
    intro e he hbe
    have hid := h.be_in_sq e he hbe
    obtain ⟨x, hx, hxsnd⟩ := List.mem_map.mp hid
    have hlive : (mlookup p.messages x.2).isSome = true := by
      rw [hxsnd]
      rw [mlookup_eq_some_of_mem h.keys_nodup (by simpa using he)]
      rfl
    split
    · exact List.mem_map.mpr ⟨x, List.mem_filter.mpr ⟨hx, by simpa using hlive⟩,
        hxsnd⟩
    · exact List.mem_map.mpr ⟨x, hx, hxsnd⟩
  · rw [maybe_trim_messages, maybe_trim_dq]
    split
    · have := @live_filter_length_le p.deadline_queue p.messages h.dq_nodup
      omega
    · omega
  · rw [maybe_trim_messages, maybe_trim_sq]
    split
    · have := @live_filter_length_le p.size_queue p.messages h.sq_nodup
      omega
    · omega

end MessagePoolModel

namespace MessagePoolModel

/-! ### Insertion lemmas -/

theorem insert_impl_messages (p : MessagePool) (msg : Message)
    (dl : Option Nat) : (p.insert_impl msg dl).1.messages =
      p.messages ++ [(p.next_message_id, msg)] := rfl

theorem insert_impl_size_bytes (p : MessagePool) (msg : Message)
    (dl : Option Nat) : (p.insert_impl msg dl).1.size_bytes =
      p.size_bytes + msg.size := rfl

theorem insert_impl_dq (p : MessagePool) (msg : Message) (dl : Option Nat) :
    (p.insert_impl msg dl).1.deadline_queue =
      match dl with
      | some d => pushBy dqLEb (d, p.next_message_id) p.deadline_queue
      | none => p.deadline_queue := rfl

theorem insert_impl_sq (p : MessagePool) (msg : Message) (dl : Option Nat) :
    (p.insert_impl msg dl).1.size_queue =
      if msg.isBestEffort then
        pushBy sqLEb (msg.size, p.next_message_id) p.size_queue
      else p.size_queue := rfl

theorem insert_impl_next (p : MessagePool) (msg : Message) (dl : Option Nat) :
    (p.insert_impl msg dl).1.next_message_id = p.next_message_id + 1 := rfl

theorem insert_impl_placeholders (p : MessagePool) (msg : Message)
    (dl : Option Nat) :
    (p.insert_impl msg dl).1.placeholders = p.placeholders := rfl

theorem insert_impl_id (p : MessagePool) (msg : Message) (dl : Option Nat) :
    (p.insert_impl msg dl).2 = p.next_message_id := rfl

theorem insert_inbound_eq (p : MessagePool) (msg : Message) :
    p.insert_inbound msg = p.insert_impl msg
      (match msg.kind with
       | .request => msg.deadline
       | .response => none) := rfl

theorem insert_outbound_request_eq (p : MessagePool) (req : Message)
    (now ttl : Nat) : p.insert_outbound_request req now ttl =
      p.insert_impl req
        (match req.deadline with
         | none => some (now + ttl)
         | some d => some d) := rfl

theorem insert_outbound_response_eq (p : MessagePool) (rep : Message) :
    p.insert_outbound_response rep = p.insert_impl rep rep.deadline := rfl

theorem pool_inv_insert_impl {p : MessagePool} (h : PoolInv p) (msg : Message)
    (dl : Option Nat) : PoolInv (p.insert_impl msg dl).1 := by
  have hN : p.next_message_id ∉ p.messages.map Prod.fst := by
    intro hc
    exact absurd (h.keys_lt _ hc) (lt_irrefl _)
  have hNdq : p.next_message_id ∉ p.deadline_queue.map Prod.snd := by
    intro hc
    exact absurd (h.dq_lt _ hc) (lt_irrefl _)
  have hNsq : p.next_message_id ∉ p.size_queue.map Prod.snd := by
    intro hc
    exact absurd (h.sq_lt _ hc) (lt_irrefl _)
  have hdq_mem : ∀ j, j ∈ (p.insert_impl msg dl).1.deadline_queue.map
      Prod.snd → j = p.next_message_id ∨ j ∈ p.deadline_queue.map Prod.snd := by
    intro j hj
    rw [insert_impl_dq] at hj
    cases dl with
    | none => exact Or.inr hj
    | some d =>
      have := (map_snd_pushBy_perm dqLEb (d, p.next_message_id)
        p.deadline_queue).mem_iff.mp hj
      simpa using this
  have hsq_mem : ∀ j, j ∈ (p.insert_impl msg dl).1.size_queue.map
      Prod.snd → j = p.next_message_id ∨ j ∈ p.size_queue.map Prod.snd := by
    intro j hj
    rw [insert_impl_sq] at hj
    by_cases hbe : msg.isBestEffort
    · rw [if_pos hbe] at hj
      have := (map_snd_pushBy_perm sqLEb (msg.size, p.next_message_id)
        p.size_queue).mem_iff.mp hj
      simpa using this
    · rw [if_neg hbe] at hj
      exact Or.inr hj
  refine ⟨⟨?_, ?_, ?_, ?_, ?_, ?_, ?_, ?_, ?_, ?_, ?_, ?_, ?_, ?_, ?_, ?_⟩,
    ?_, ?_⟩
  · rw [insert_impl_messages]
    simp only [List.map_append, List.map_cons, List.map_nil]
    rw [List.nodup_append]
    refine ⟨h.keys_nodup, List.nodup_singleton _, ?_⟩
    intro a ha hb
    simp only [List.mem_singleton] at hb
    subst hb
    exact hN ha
  · rw [insert_impl_messages, insert_impl_next]
    intro id hid
    simp only [List.map_append, List.map_cons, List.map_nil,
      List.mem_append, List.mem_singleton] at hid
    rcases hid with hid | hid
    · have := h.keys_lt id hid
      omega
    · omega
  · rw [insert_impl_placeholders]
    exact h.ph_nodup
  · rw [insert_impl_placeholders, insert_impl_next]
    intro id hid
    have := h.ph_lt id hid
    omega
  · rw [insert_impl_placeholders, insert_impl_messages]
    intro id hid
    have hlt := h.ph_lt id hid
    simp only [List.map_append, List.map_cons, List.map_nil,
      List.mem_append, List.mem_singleton]
    push_neg
    exact ⟨h.ph_fresh_store id hid, by omega⟩
  · rw [insert_impl_placeholders]
    intro id hid hmem
    rcases hdq_mem id hmem with rfl | hmem'
    · exact absurd (h.ph_lt _ hid) (lt_irrefl _)
    · exact h.ph_fresh_dq id hid hmem'
  · rw [insert_impl_placeholders]
    intro id hid hmem
    rcases hsq_mem id hmem with rfl | hmem'
    · exact absurd (h.ph_lt _ hid) (lt_irrefl _)
    · exact h.ph_fresh_sq id hid hmem'
  · rw [insert_impl_size_bytes, insert_impl_messages, sumSizes_append,
      h.size_ok]
    simp [sumSizes]
  · rw [insert_impl_next]
    intro id hid
    rcases hdq_mem id hid with rfl | hid'
    · omega
    · have := h.dq_lt id hid'
      omega
  · rw [insert_impl_next]
    intro id hid
    rcases hsq_mem id hid with rfl | hid'
    · omega
    · have := h.sq_lt id hid'
      omega
  · rw [insert_impl_dq]
    cases dl with
    | none => exact h.dq_nodup
    | some d => exact nodup_snd_pushBy h.dq_nodup hNdq
  · rw [insert_impl_sq]
    by_cases hbe : msg.isBestEffort
    · rw [if_pos hbe]
      exact nodup_snd_pushBy h.sq_nodup hNsq
    · rw [if_neg hbe]
      exact h.sq_nodup
  · rw [insert_impl_dq]
    cases dl with
    | none => exact h.dq_sorted
    | some d =>
      exact @pairwise_pushBy dqLEb (d, p.next_message_id) p.deadline_queue
        (fun a b c h1 h2 => dqLEb_trans h1 h2)
        (fun a b hab => dqLEb_total hab) h.dq_sorted
  · rw [insert_impl_sq]
    by_cases hbe : msg.isBestEffort
    · rw [if_pos hbe]
      exact @pairwise_pushBy sqLEb (msg.size, p.next_message_id) p.size_queue
        (fun a b c h1 h2 => sqLEb_trans h1 h2)
        (fun a b hab => sqLEb_total hab) h.sq_sorted
    · rw [if_neg hbe]
      exact h.sq_sorted
  · rw [insert_impl_sq, insert_impl_messages]
    intro e he m hm
    by_cases hbe : msg.isBestEffort
    · rw [if_pos hbe] at he
      rcases mem_pushBy.mp he with rfl | he'
      · rw [mlookup_append_self hN] at hm
        cases hm
        exact ⟨hbe, rfl⟩
      · have hne : e.2 ≠ p.next_message_id := by
          intro hc
          exact hNsq (hc ▸ List.mem_map.mpr ⟨e, he', rfl⟩)
        rw [mlookup_append_ne hne] at hm
        exact h.sq_live e he' m hm
    · rw [if_neg hbe] at he
      have hne : e.2 ≠ p.next_message_id := by
        intro hc
        exact hNsq (hc ▸ List.mem_map.mpr ⟨e, he, rfl⟩)
      rw [mlookup_append_ne hne] at hm
      exact h.sq_live e he m hm
  · rw [insert_impl_messages, insert_impl_sq]
    intro e he hbe
    rcases List.mem_append.mp he with he' | he'
    · have := h.be_in_sq e he' hbe
      by_cases hmbe : msg.isBestEffort
      · rw [if_pos hmbe]
        have := (map_snd_pushBy_perm sqLEb (msg.size, p.next_message_id)
          p.size_queue).mem_iff (a := e.1)
        rw [this]
        simpa using Or.inr (by simpa using h.be_in_sq e he' hbe)
      · rw [if_neg hmbe]
        exact this
    · simp only [List.mem_singleton] at he'
      subst he'
      rw [if_pos hbe]
      have := (map_snd_pushBy_perm sqLEb (msg.size, p.next_message_id)
        p.size_queue).mem_iff (a := p.next_message_id)
      rw [this]
      simp
  · rw [insert_impl_messages, insert_impl_dq]
    have hlen : (p.messages ++ [(p.next_message_id, msg)]).length =
        p.messages.length + 1 := by simp
    rw [hlen]
    cases dl with
    | none =>
      show p.deadline_queue.length ≤ 2 * (p.messages.length + 1) + 2
      have := h.dq_bound
      omega
    | some d =>
      show (pushBy dqLEb (d, p.next_message_id) p.deadline_queue).length ≤
        2 * (p.messages.length + 1) + 2
      have := (pushBy_perm dqLEb (d, p.next_message_id)
        p.deadline_queue).length_eq
      have hb := h.dq_bound
      simp only [List.length_cons] at this
      omega
  · rw [insert_impl_messages, insert_impl_sq]
    have hlen : (p.messages ++ [(p.next_message_id, msg)]).length =
        p.messages.length + 1 := by simp
    rw [hlen]
    by_cases hbe : msg.isBestEffort
    · rw [if_pos hbe]
      have := (pushBy_perm sqLEb (msg.size, p.next_message_id)
        p.size_queue).length_eq
      have hb := h.sq_bound
      simp only [List.length_cons] at this
      omega
    · rw [if_neg hbe]
      have := h.sq_bound
      omega

end MessagePoolModel

namespace MessagePoolModel

/-! ### Placeholder lemmas -/

theorem reserve_messages (p : MessagePool) :
    p.insert_inbound_timeout_response.1.messages = p.messages := rfl

theorem reserve_size_bytes (p : MessagePool) :
    p.insert_inbound_timeout_response.1.size_bytes = p.size_bytes := rfl

theorem reserve_dq (p : MessagePool) :
    p.insert_inbound_timeout_response.1.deadline_queue =
      p.deadline_queue := rfl

theorem reserve_sq (p : MessagePool) :
    p.insert_inbound_timeout_response.1.size_queue = p.size_queue := rfl

theorem reserve_next (p : MessagePool) :
    p.insert_inbound_timeout_response.1.next_message_id =
      p.next_message_id + 1 := rfl

theorem reserve_placeholders (p : MessagePool) :
    p.insert_inbound_timeout_response.1.placeholders =
      p.placeholders ++ [p.next_message_id] := rfl

theorem reserve_id (p : MessagePool) :
    p.insert_inbound_timeout_response.2 = p.next_message_id := rfl

theorem pool_inv_reserve {p : MessagePool} (h : PoolInv p) :
    PoolInv p.insert_inbound_timeout_response.1 := by
  refine ⟨⟨?_, ?_, ?_, ?_, ?_, ?_, ?_, ?_, ?_, ?_, ?_, ?_, ?_, ?_, ?_, ?_⟩,
    ?_, ?_⟩
  · rw [reserve_messages]
    exact h.keys_nodup
  · rw [reserve_messages, reserve_next]
    intro id hid
    have := h.keys_lt id hid
    omega
  · rw [reserve_placeholders]
    rw [List.nodup_append]
    refine ⟨h.ph_nodup, List.nodup_singleton _, ?_⟩
    intro a ha hb
    simp only [List.mem_singleton] at hb
    subst hb
    exact absurd (h.ph_lt _ ha) (lt_irrefl _)
  · rw [reserve_placeholders, reserve_next]
    intro id hid
    rcases List.mem_append.mp hid with hid | hid
    · have := h.ph_lt id hid
      omega
    · simp only [List.mem_singleton] at hid
      omega
  · rw [reserve_placeholders, reserve_messages]
    intro id hid
    rcases List.mem_append.mp hid with hid | hid
    · exact h.ph_fresh_store id hid
    · simp only [List.mem_singleton] at hid
      subst hid
      intro hc
      exact absurd (h.keys_lt _ hc) (lt_irrefl _)
  · rw [reserve_placeholders, reserve_dq]
    intro id hid
    rcases List.mem_append.mp hid with hid | hid
    · exact h.ph_fresh_dq id hid
    · simp only [List.mem_singleton] at hid
      subst hid
      intro hc
      exact absurd (h.dq_lt _ hc) (lt_irrefl _)
  · rw [reserve_placeholders, reserve_sq]
    intro id hid
    rcases List.mem_append.mp hid with hid | hid
    · exact h.ph_fresh_sq id hid
    · simp only [List.mem_singleton] at hid
      subst hid
      intro hc
      exact absurd (h.sq_lt _ hc) (lt_irrefl _)
  · rw [reserve_size_bytes, reserve_messages]
    exact h.size_ok
  · rw [reserve_dq, reserve_next]
    intro id hid
    have := h.dq_lt id hid
    omega
  · rw [reserve_sq, reserve_next]
    intro id hid
    have := h.sq_lt id hid
    omega
  · rw [reserve_dq]
    exact h.dq_nodup
  · rw [reserve_sq]
    exact h.sq_nodup
  · rw [reserve_dq]
    exact h.dq_sorted
  · rw [reserve_sq]
    exact h.sq_sorted
  · rw [reserve_sq, reserve_messages]
    exact h.sq_live
  · rw [reserve_messages, reserve_sq]
    exact h.be_in_sq
  · rw [reserve_dq, reserve_messages]
    exact h.dq_bound
  · rw [reserve_sq, reserve_messages]
    exact h.sq_bound

theorem replace_eq_none {p : MessagePool} {id : Nat} {msg : Message}
    (h : ¬(msg.kind = .response ∧ msg.deadline.isSome = true)) :
    p.replace_inbound_timeout_response id msg = none := by
  unfold MessagePool.replace_inbound_timeout_response
  cases hk : msg.kind with
  | request => rfl
  | response =>
    cases hd : msg.deadline with
    | none => rfl
    | some d =>
      exact absurd ⟨hk, by simp [hd]⟩ h

theorem replace_eq_some {p : MessagePool} {id : Nat} {msg : Message}
    {d : Nat} (hk : msg.kind = .response) (hd : msg.deadline = some d) :
    p.replace_inbound_timeout_response id msg = some
      { p with
        messages := p.messages ++ [(id, msg)]
        size_bytes := p.size_bytes + msg.size
        size_queue := pushBy sqLEb (msg.size, id) p.size_queue
        placeholders := p.placeholders.filter (fun x => x != id) } := by
  unfold MessagePool.replace_inbound_timeout_response
  rw [hk, hd]

theorem pool_inv_fulfill {p p' : MessagePool} {id : Nat} {msg : Message}
    (h : PoolInv p) (hph : id ∈ p.placeholders)
    (hrep : p.replace_inbound_timeout_response id msg = some p') :
    PoolInv p' := by
  have hk : msg.kind = .response ∧ msg.deadline.isSome = true := by
    by_contra hc
    rw [replace_eq_none hc] at hrep
    cases hrep
  obtain ⟨hk, hd⟩ := hk
  obtain ⟨d, hd⟩ := Option.isSome_iff_exists.mp hd
  rw [replace_eq_some hk hd] at hrep
  cases hrep
  have hid_lt : id < p.next_message_id := h.ph_lt id hph
  have hid_keys : id ∉ p.messages.map Prod.fst := h.ph_fresh_store id hph
  have hid_sq : id ∉ p.size_queue.map Prod.snd := h.ph_fresh_sq id hph
  have hbe : msg.isBestEffort = true := by
    simp [Message.isBestEffort, hd]
  refine ⟨⟨?_, ?_, ?_, ?_, ?_, ?_, ?_, ?_, ?_, ?_, ?_, ?_, ?_, ?_, ?_, ?_⟩,
    ?_, ?_⟩
  · simp only [List.map_append, List.map_cons, List.map_nil]
    rw [List.nodup_append]
    refine ⟨h.keys_nodup, List.nodup_singleton _, ?_⟩
    intro a ha hb
    simp only [List.mem_singleton] at hb
    subst hb
    exact hid_keys ha
  · intro j hj
    simp only [List.map_append, List.map_cons, List.map_nil,
      List.mem_append, List.mem_singleton] at hj
    rcases hj with hj | hj
    · exact h.keys_lt j hj
    · subst hj
      exact hid_lt
  · exact h.ph_nodup.sublist (List.filter_sublist _)
  · intro j hj
    exact h.ph_lt j ((List.filter_sublist _).subset hj)
  · intro j hj
    have hmem := (List.filter_sublist _).subset hj
    have hne : j ≠ id := by
      have := (List.mem_filter.mp hj).2
      simpa using this
    intro hc
    simp only [List.map_append, List.map_cons, List.map_nil,
      List.mem_append, List.mem_singleton] at hc
    rcases hc with hc | hc
    · exact h.ph_fresh_store j hmem hc
    · exact hne hc
  · intro j hj
    exact h.ph_fresh_dq j ((List.filter_sublist _).subset hj)
  · intro j hj
    have hmem := (List.filter_sublist _).subset hj
    have hne : j ≠ id := by
      have := (List.mem_filter.mp hj).2
      simpa using this
    intro hc
    rcases List.mem_cons.mp ((map_snd_pushBy_perm sqLEb (msg.size, id)
        p.size_queue).mem_iff.mp hc) with hc' | hc'
    · exact hne hc'
    · exact h.ph_fresh_sq j hmem hc'
  · rw [sumSizes_append]
    simp only [sumSizes, List.map_cons, List.map_nil, List.sum_cons,
      List.sum_nil]
    rw [h.size_ok]
    simp [sumSizes]
  · exact h.dq_lt
  · intro j hj
    rcases List.mem_cons.mp ((map_snd_pushBy_perm sqLEb (msg.size, id)
        p.size_queue).mem_iff.mp (by simpa using hj)) with hc' | hc'
    · subst hc'
      exact hid_lt
    · exact h.sq_lt j hc'
  · exact h.dq_nodup
  · exact nodup_snd_pushBy h.sq_nodup hid_sq
  · exact h.dq_sorted
  · exact @pairwise_pushBy sqLEb (msg.size, id) p.size_queue
      (fun a b c h1 h2 => sqLEb_trans h1 h2)
      (fun a b hab => sqLEb_total hab) h.sq_sorted
  · intro e he m hm
    rcases mem_pushBy.mp he with rfl | he'
    · rw [mlookup_append_self hid_keys] at hm
      cases hm
      exact ⟨hbe, rfl⟩
    · have hne : e.2 ≠ id := by
        intro hc
        exact hid_sq (hc ▸ List.mem_map.mpr ⟨e, he', rfl⟩)
      rw [mlookup_append_ne hne] at hm
      exact h.sq_live e he' m hm
  · intro e he hebe
    rcases List.mem_append.mp he with he' | he'
    · have := h.be_in_sq e he' hebe
      rw [(map_snd_pushBy_perm sqLEb (msg.size, id) p.size_queue).mem_iff]
      simp only [List.mem_cons]
      exact Or.inr this
    · simp only [List.mem_singleton] at he'
      subst he'
      rw [(map_snd_pushBy_perm sqLEb (msg.size, id) p.size_queue).mem_iff]
      simp
  · simp only [List.length_append, List.length_cons, List.length_nil]
    have := h.dq_bound
    omega
  · have := (pushBy_perm sqLEb (msg.size, id) p.size_queue).length_eq
    simp only [List.length_cons] at this
    simp only [List.length_append, List.length_cons, List.length_nil]
    have hb := h.sq_bound
    omega

end MessagePoolModel

namespace MessagePoolModel

/-! ### Removal lemmas -/

theorem take_eq_of_none {p : MessagePool} {r : MessagePoolReference}
    (hl : mlookup p.messages r.id = none) : p.take r = (p, none) := by
  unfold MessagePool.take
  rw [hl]

theorem take_eq_request {p : MessagePool} {i : Nat} {m : Message}
    (hl : mlookup p.messages i = some m) (hk : m.kind = .request) :
    p.take (.request i) =
      (({ p with
            messages := mremove p.messages i
            size_bytes := p.size_bytes - m.size }).maybe_trim_queues,
        some m) := by
  obtain ⟨mk, md, msz⟩ := m
  have hk' : mk = MsgKind.request := hk
  subst hk'
  unfold MessagePool.take
  simp only [MessagePoolReference.id]
  rw [hl]

theorem take_eq_response {p : MessagePool} {i : Nat} {m : Message}
    (hl : mlookup p.messages i = some m) (hk : m.kind = .response) :
    p.take (.response i) =
      (({ p with
            messages := mremove p.messages i
            size_bytes := p.size_bytes - m.size }).maybe_trim_queues,
        some m) := by
  obtain ⟨mk, md, msz⟩ := m
  have hk' : mk = MsgKind.response := hk
  subst hk'
  unfold MessagePool.take
  simp only [MessagePoolReference.id]
  rw [hl]

theorem take_eq_request_mismatch {p : MessagePool} {i : Nat} {m : Message}
    (hl : mlookup p.messages i = some m) (hk : m.kind = .response) :
    p.take (.request i) = (p, none) := by
  obtain ⟨mk, md, msz⟩ := m
  have hk' : mk = MsgKind.response := hk
  subst hk'
  unfold MessagePool.take
  simp only [MessagePoolReference.id]
  rw [hl]

theorem take_eq_response_mismatch {p : MessagePool} {i : Nat} {m : Message}
    (hl : mlookup p.messages i = some m) (hk : m.kind = .request) :
    p.take (.response i) = (p, none) := by
  obtain ⟨mk, md, msz⟩ := m
  have hk' : mk = MsgKind.request := hk
  subst hk'
  unfold MessagePool.take
  simp only [MessagePoolReference.id]
  rw [hl]

/-- Removing one live message (with its size subtracted) preserves the
structural invariant. -/
theorem pool_inv_core_remove {p : MessagePool} (h : PoolInv p) {id : Nat}
    {m : Message} (hm : mlookup p.messages id = some m) :
    PoolInvCore { p with
      messages := mremove p.messages id
      size_bytes := p.size_bytes - m.size } := by
  have hkeys : (mremove p.messages id).map Prod.fst ⊆
      p.messages.map Prod.fst := ((mremove_sublist _ _).map Prod.fst).subset
  refine ⟨?_, ?_, ?_, ?_, ?_, ?_, ?_, ?_, ?_, ?_, ?_, ?_, ?_, ?_, ?_, ?_⟩
  · exact h.keys_nodup.sublist ((mremove_sublist _ _).map Prod.fst)
  · intro j hj
    exact h.keys_lt j (hkeys hj)
  · exact h.ph_nodup
  · exact h.ph_lt
  · intro j hj hc
    exact h.ph_fresh_store j hj (hkeys hc)
  · exact h.ph_fresh_dq
  · exact h.ph_fresh_sq
  · have hs := sumSizes_mremove h.keys_nodup hm
    have := h.size_ok
    simp only
    omega
  · exact h.dq_lt
  · exact h.sq_lt
  · exact h.dq_nodup
  · exact h.sq_nodup
  · exact h.dq_sorted
  · exact h.sq_sorted
  · intro e he m' hm'
    rw [mlookup_mremove] at hm'
    by_cases hej : e.2 = id
    · rw [if_pos hej] at hm'
      cases hm'
    · rw [if_neg hej] at hm'
      exact h.sq_live e he m' hm'
  · intro e he hbe
    exact h.be_in_sq e ((mremove_sublist _ _).subset he) hbe

theorem pool_inv_take {p : MessagePool} (h : PoolInv p)
    (r : MessagePoolReference) : PoolInv (p.take r).1 := by
  cases r with
  | request i =>
    cases hl : mlookup p.messages i with
    | none =>
      rw [take_eq_of_none hl]
      exact h
    | some m =>
      cases hk : m.kind with
      | request =>
        rw [take_eq_request hl hk]
        exact pool_inv_maybe_trim (pool_inv_core_remove h hl)
      | response =>
        rw [take_eq_request_mismatch hl hk]
        exact h
  | response i =>
    cases hl : mlookup p.messages i with
    | none =>
      rw [take_eq_of_none hl]
      exact h
    | some m =>
      cases hk : m.kind with
      | request =>
        rw [take_eq_response_mismatch hl hk]
        exact h
      | response =>
        rw [take_eq_response hl hk]
        exact pool_inv_maybe_trim (pool_inv_core_remove h hl)

end MessagePoolModel

namespace MessagePoolModel

/-! ### Expiration loop lemmas -/

theorem expireLoop_nil (now : Nat) (ms : List (Nat × Message)) (sz : Nat) :
    expireLoop now [] ms sz = ⟨[], ms, sz, []⟩ := rfl

theorem expireLoop_cons_stop {now d : Nat} (id : Nat)
    (rest : List (Nat × Nat)) (ms : List (Nat × Message)) (sz : Nat)
    (h : now ≤ d) :
    expireLoop now ((d, id) :: rest) ms sz = ⟨(d, id) :: rest, ms, sz, []⟩ := by
  conv_lhs => rw [expireLoop]
  rw [if_pos h]

theorem expireLoop_cons_some {now d : Nat} {id : Nat}
    {rest : List (Nat × Nat)} {ms : List (Nat × Message)} {sz : Nat}
    {m : Message} (h : ¬ now ≤ d) (hml : mlookup ms id = some m) :
    expireLoop now ((d, id) :: rest) ms sz =
      ⟨(expireLoop now rest (mremove ms id) (sz - m.size)).dq,
        (expireLoop now rest (mremove ms id) (sz - m.size)).ms,
        (expireLoop now rest (mremove ms id) (sz - m.size)).sz,
        (id, m) :: (expireLoop now rest (mremove ms id) (sz - m.size)).ex⟩ := by
  conv_lhs => rw [expireLoop]
  rw [if_neg h, hml]

theorem expireLoop_cons_none {now d : Nat} {id : Nat}
    {rest : List (Nat × Nat)} {ms : List (Nat × Message)} {sz : Nat}
    (h : ¬ now ≤ d) (hml : mlookup ms id = none) :
    expireLoop now ((d, id) :: rest) ms sz = expireLoop now rest ms sz := by
  conv_lhs => rw [expireLoop]
  rw [if_neg h, hml]

theorem expireLoop_dq (now : Nat) (dq : List (Nat × Nat)) :
    ∀ (ms : List (Nat × Message)) (sz : Nat),
      (expireLoop now dq ms sz).dq =
        dq.dropWhile (fun e => decide (e.1 < now)) := by
  induction dq with
  | nil =>
    intro ms sz
    simp [expireLoop_nil]
  | cons x rest ih =>
    obtain ⟨d, id⟩ := x
    intro ms sz
    by_cases hnd : now ≤ d
    · rw [expireLoop_cons_stop id rest ms sz hnd,
        List.dropWhile_cons_of_neg (by simp; omega)]
    · rw [List.dropWhile_cons_of_pos (by simp; omega)]
      cases hml : mlookup ms id with
      | none => rw [expireLoop_cons_none hnd hml, ih]
      | some m => rw [expireLoop_cons_some hnd hml]
                  exact ih _ _

theorem expireLoop_ms_sublist (now : Nat) (dq : List (Nat × Nat)) :
    ∀ (ms : List (Nat × Message)) (sz : Nat),
      List.Sublist (expireLoop now dq ms sz).ms ms := by
  induction dq with
  | nil =>
    intro ms sz
    simp [expireLoop_nil]
  | cons x rest ih =>
    obtain ⟨d, id⟩ := x
    intro ms sz
    by_cases hnd : now ≤ d
    · rw [expireLoop_cons_stop id rest ms sz hnd]
    · cases hml : mlookup ms id with
      | none =>
        rw [expireLoop_cons_none hnd hml]
        exact ih ms sz
      | some m =>
        rw [expireLoop_cons_some hnd hml]
        exact List.Sublist.trans (ih _ _) (mremove_sublist ms id)

theorem expireLoop_sz (now : Nat) (dq : List (Nat × Nat)) :
    ∀ (ms : List (Nat × Message)) (sz : Nat),
      (ms.map Prod.fst).Nodup → sz = sumSizes ms →
      (expireLoop now dq ms sz).sz = sumSizes (expireLoop now dq ms sz).ms := by
  induction dq with
  | nil =>
    intro ms sz _ hsz
    simpa [expireLoop_nil] using hsz
  | cons x rest ih =>
    obtain ⟨d, id⟩ := x
    intro ms sz hnd hsz
    by_cases hcond : now ≤ d
    · rw [expireLoop_cons_stop id rest ms sz hcond]
      exact hsz
    · cases hml : mlookup ms id with
      | none =>
        rw [expireLoop_cons_none hcond hml]
        exact ih ms sz hnd hsz
      | some m =>
        rw [expireLoop_cons_some hcond hml]
        have hnd' : ((mremove ms id).map Prod.fst).Nodup :=
          hnd.sublist ((mremove_sublist ms id).map Prod.fst)
        have hsum := sumSizes_mremove hnd hml
        exact ih (mremove ms id) (sz - m.size) hnd' (by omega)

theorem mem_expireLoop_ms (now : Nat) (dq : List (Nat × Nat)) :
    ∀ (ms : List (Nat × Message)) (sz : Nat) (j : Nat) (m : Message),
      (j, m) ∈ (expireLoop now dq ms sz).ms ↔
        ((j, m) ∈ ms ∧
          ∀ x ∈ dq.takeWhile (fun e => decide (e.1 < now)), x.2 ≠ j) := by
  induction dq with
  | nil =>
    intro ms sz j m
    simp [expireLoop_nil]
  | cons x rest ih =>
    obtain ⟨d, id⟩ := x
    intro ms sz j m
    by_cases hcond : now ≤ d
    · rw [expireLoop_cons_stop id rest ms sz hcond,
        List.takeWhile_cons_of_neg (by simp; omega)]
      simp
    · rw [List.takeWhile_cons_of_pos (by simp; omega)]
      cases hml : mlookup ms id with
      | some m0 =>
        rw [expireLoop_cons_some hcond hml]
        rw [ih (mremove ms id) (sz - m0.size) j m]
        rw [mem_mremove_iff]
        constructor
        · rintro ⟨⟨hms, hne⟩, hrest⟩
          refine ⟨hms, ?_⟩
          intro x hx
          rcases List.mem_cons.mp hx with rfl | hx
          · simpa using fun hc => hne hc.symm
          · exact hrest x hx
        · rintro ⟨hms, hall⟩
          have hne := hall (d, id) (List.mem_cons_self _ _)
          refine ⟨⟨hms, fun hc => hne (by simp [hc])⟩, ?_⟩
          intro x hx
          exact hall x (List.mem_cons_of_mem _ hx)
      | none =>
        rw [expireLoop_cons_none hcond hml]
        rw [ih ms sz j m]
        constructor
        · rintro ⟨hms, hrest⟩
          refine ⟨hms, ?_⟩
          intro x hx
          rcases List.mem_cons.mp hx with rfl | hx
          · simp only [ne_eq]
            intro hc
            rw [hc] at hml
            exact absurd (List.mem_map.mpr ⟨(j, m), hms, rfl⟩)
              (mlookup_eq_none_iff.mp hml)
          · exact hrest x hx
        · rintro ⟨hms, hall⟩
          refine ⟨hms, ?_⟩
          intro x hx
          exact hall x (List.mem_cons_of_mem _ hx)

theorem expireLoop_ex (now : Nat) (dq : List (Nat × Nat)) :
    ∀ (ms : List (Nat × Message)) (sz : Nat),
      (dq.map Prod.snd).Nodup →
      (expireLoop now dq ms sz).ex =
        (dq.takeWhile (fun e => decide (e.1 < now))).filterMap
          (fun e => (mlookup ms e.2).map (fun mm => (e.2, mm))) := by
  induction dq with
  | nil =>
    intro ms sz _
    simp [expireLoop_nil]
  | cons x rest ih =>
    obtain ⟨d, id⟩ := x
    intro ms sz hnd
    simp only [List.map_cons, List.nodup_cons] at hnd
    by_cases hcond : now ≤ d
    · rw [expireLoop_cons_stop id rest ms sz hcond,
        List.takeWhile_cons_of_neg (by simp; omega)]
      simp
    · rw [List.takeWhile_cons_of_pos (by simp; omega)]
      cases hml : mlookup ms id with
      | some m0 =>
        rw [expireLoop_cons_some hcond hml]
        show (id, m0) :: (expireLoop now rest (mremove ms id)
            (sz - m0.size)).ex = _
        have hcons : List.filterMap
            (fun e => Option.map (fun mm => (e.2, mm)) (mlookup ms e.2))
            ((d, id) :: List.takeWhile (fun e => decide (e.1 < now)) rest) =
            (id, m0) :: List.filterMap
              (fun e => Option.map (fun mm => (e.2, mm)) (mlookup ms e.2))
              (List.takeWhile (fun e => decide (e.1 < now)) rest) :=
          List.filterMap_cons_some (by simp [hml])
        rw [hcons]
        rw [ih (mremove ms id) (sz - m0.size) hnd.2]
        congr 1
        apply List.filterMap_congr
        intro e he
        have hemem : e.2 ∈ rest.map Prod.snd :=
          List.mem_map.mpr ⟨e, (List.takeWhile_sublist _).subset he, rfl⟩
        have hne : e.2 ≠ id := by
          intro hc
          rw [hc] at hemem
          exact hnd.1 hemem
        rw [mlookup_mremove, if_neg hne]
      | none =>
        rw [expireLoop_cons_none hcond hml]
        have hcons : List.filterMap
            (fun e => Option.map (fun mm => (e.2, mm)) (mlookup ms e.2))
            ((d, id) :: List.takeWhile (fun e => decide (e.1 < now)) rest) =
            List.filterMap
              (fun e => Option.map (fun mm => (e.2, mm)) (mlookup ms e.2))
              (List.takeWhile (fun e => decide (e.1 < now)) rest) :=
          List.filterMap_cons_none (by simp [hml])
        rw [hcons]
        exact ih ms sz hnd.2

end MessagePoolModel

namespace MessagePoolModel

/-! ### Shedding loop lemmas -/

theorem shedLoop_nil (ms : List (Nat × Message)) (sz : Nat) :
    shedLoop [] ms sz = ⟨[], ms, sz, none⟩ := rfl

theorem shedLoop_cons_some {s id : Nat} {rest : List (Nat × Nat)}
    {ms : List (Nat × Message)} {sz : Nat} {m : Message}
    (hml : mlookup ms id = some m) :
    shedLoop ((s, id) :: rest) ms sz =
      ⟨rest, mremove ms id, sz - m.size, some (id, m)⟩ := by
  conv_lhs => rw [shedLoop]
  rw [hml]

theorem shedLoop_cons_none {s id : Nat} {rest : List (Nat × Nat)}
    {ms : List (Nat × Message)} {sz : Nat} (hml : mlookup ms id = none) :
    shedLoop ((s, id) :: rest) ms sz = shedLoop rest ms sz := by
  conv_lhs => rw [shedLoop]
  rw [hml]

theorem shedLoop_none_spec (sq : List (Nat × Nat))
    (ms : List (Nat × Message)) (sz : Nat)
    (h : (shedLoop sq ms sz).res = none) :
    shedLoop sq ms sz = ⟨[], ms, sz, none⟩ ∧
      ∀ e ∈ sq, mlookup ms e.2 = none := by
  induction sq with
  | nil => exact ⟨shedLoop_nil ms sz, by simp⟩
  | cons x rest ih =>
    obtain ⟨s, id⟩ := x
    cases hml : mlookup ms id with
    | some m =>
      rw [shedLoop_cons_some hml] at h
      cases h
    | none =>
      rw [shedLoop_cons_none hml] at h ⊢
      obtain ⟨heq, hall⟩ := ih h
      refine ⟨heq, ?_⟩
      intro e he
      rcases List.mem_cons.mp he with rfl | he
      · exact hml
      · exact hall e he

theorem shedLoop_some_spec (sq : List (Nat × Nat))
    (ms : List (Nat × Message)) (sz : Nat) {id : Nat} {m : Message}
    (h : (shedLoop sq ms sz).res = some (id, m)) :
    mlookup ms id = some m ∧
      (shedLoop sq ms sz).ms = mremove ms id ∧
      (shedLoop sq ms sz).sz = sz - m.size ∧
      ∃ dead s, sq = dead ++ (s, id) :: (shedLoop sq ms sz).sq ∧
        ∀ e ∈ dead, mlookup ms e.2 = none := by
  induction sq with
  | nil =>
    rw [shedLoop_nil] at h
    cases h
  | cons x rest ih =>
    obtain ⟨s', id'⟩ := x
    cases hml : mlookup ms id' with
    | some m' =>
      rw [shedLoop_cons_some hml] at h ⊢
      simp only at h
      obtain ⟨h1, h2⟩ : id' = id ∧ m' = m := by
        cases h
        exact ⟨rfl, rfl⟩
      subst h1
      subst h2
      exact ⟨hml, rfl, rfl, [], s', rfl, by simp⟩
    | none =>
      rw [shedLoop_cons_none hml] at h ⊢
      obtain ⟨hl, hms, hsz, dead, s, hsq, hdead⟩ := ih h
      refine ⟨hl, hms, hsz, (s', id') :: dead, s, ?_, ?_⟩
      · rw [List.cons_append, ← hsq]
      · intro e he
        rcases List.mem_cons.mp he with rfl | he
        · exact hml
        · exact hdead e he

end MessagePoolModel

namespace MessagePoolModel

/-! ### Expiration and shedding preserve the invariant -/

theorem expire_eq_nil {p : MessagePool} (now : Nat)
    (h : p.deadline_queue = []) : p.expire_messages now = (p, []) := by
  unfold MessagePool.expire_messages
  rw [h]

theorem expire_eq_cons {p : MessagePool} (now : Nat) {x : Nat × Nat}
    {rest : List (Nat × Nat)} (h : p.deadline_queue = x :: rest) :
    p.expire_messages now =
      (({ p with
            deadline_queue :=
              (expireLoop now (x :: rest) p.messages p.size_bytes).dq
            messages := (expireLoop now (x :: rest) p.messages p.size_bytes).ms
            size_bytes :=
              (expireLoop now (x :: rest) p.messages p.size_bytes).sz
          }).maybe_trim_queues,
        (expireLoop now (x :: rest) p.messages p.size_bytes).ex) := by
  unfold MessagePool.expire_messages
  rw [h]

theorem shed_eq_none {p : MessagePool}
    (h : (shedLoop p.size_queue p.messages p.size_bytes).res = none) :
    p.shed_largest_message =
      ({ p with
          size_queue := (shedLoop p.size_queue p.messages p.size_bytes).sq
          messages := (shedLoop p.size_queue p.messages p.size_bytes).ms
          size_bytes := (shedLoop p.size_queue p.messages p.size_bytes).sz },
        none) := by
  unfold MessagePool.shed_largest_message
  simp only [h]

theorem shed_eq_some {p : MessagePool} {x : Nat × Message}
    (h : (shedLoop p.size_queue p.messages p.size_bytes).res = some x) :
    p.shed_largest_message =
      (({ p with
            size_queue := (shedLoop p.size_queue p.messages p.size_bytes).sq
            messages := (shedLoop p.size_queue p.messages p.size_bytes).ms
            size_bytes := (shedLoop p.size_queue p.messages p.size_bytes).sz
          }).maybe_trim_queues,
        some x) := by
  unfold MessagePool.shed_largest_message
  simp only [h]

theorem pool_inv_expire {p : MessagePool} (h : PoolInv p) (now : Nat) :
    PoolInv (p.expire_messages now).1 := by
  cases hdq : p.deadline_queue with
  | nil =>
    rw [expire_eq_nil now hdq]
    exact h
  | cons x rest =>
    rw [expire_eq_cons now hdq]
    apply pool_inv_maybe_trim
    have hms : List.Sublist
        (expireLoop now (x :: rest) p.messages p.size_bytes).ms p.messages :=
      expireLoop_ms_sublist now (x :: rest) p.messages p.size_bytes
    have hdqs : List.Sublist
        (expireLoop now (x :: rest) p.messages p.size_bytes).dq
        p.deadline_queue := by
      rw [expireLoop_dq now (x :: rest) p.messages p.size_bytes, hdq]
      exact List.dropWhile_sublist _
    have hkeys : (expireLoop now (x :: rest) p.messages
        p.size_bytes).ms.map Prod.fst ⊆ p.messages.map Prod.fst :=
      (hms.map Prod.fst).subset
    refine ⟨?_, ?_, ?_, ?_, ?_, ?_, ?_, ?_, ?_, ?_, ?_, ?_, ?_, ?_, ?_, ?_⟩
    · exact h.keys_nodup.sublist (hms.map Prod.fst)
    · intro j hj
      exact h.keys_lt j (hkeys hj)
    · exact h.ph_nodup
    · exact h.ph_lt
    · intro j hj hc
      exact h.ph_fresh_store j hj (hkeys hc)
    · intro j hj hc
      exact h.ph_fresh_dq j hj ((hdqs.map Prod.snd).subset hc)
    · exact h.ph_fresh_sq
    · exact expireLoop_sz now (x :: rest) p.messages p.size_bytes
        h.keys_nodup h.size_ok
    · intro j hj
      exact h.dq_lt j ((hdqs.map Prod.snd).subset hj)
    · exact h.sq_lt
    · exact nodup_snd_of_sublist hdqs h.dq_nodup
    · exact h.sq_nodup
    · exact h.dq_sorted.sublist hdqs
    · exact h.sq_sorted
    · intro e he m hm
      have hmem := mem_of_mlookup_eq_some hm
      have hmem' := hms.subset hmem
      exact h.sq_live e he m (mlookup_eq_some_of_mem h.keys_nodup hmem')
    · intro e he hbe
      exact h.be_in_sq e (hms.subset he) hbe

theorem pool_inv_shed {p : MessagePool} (h : PoolInv p) :
    PoolInv p.shed_largest_message.1 := by
  cases hres : (shedLoop p.size_queue p.messages p.size_bytes).res with
  | none =>
    rw [shed_eq_none hres]
    obtain ⟨heq, hall⟩ :=
      shedLoop_none_spec p.size_queue p.messages p.size_bytes hres
    rw [heq]
    refine ⟨⟨?_, ?_, ?_, ?_, ?_, ?_, ?_, ?_, ?_, ?_, ?_, ?_, ?_, ?_, ?_, ?_⟩,
      ?_, ?_⟩
    · exact h.keys_nodup
    · exact h.keys_lt
    · exact h.ph_nodup
    · exact h.ph_lt
    · exact h.ph_fresh_store
    · exact h.ph_fresh_dq
    · intro j hj
      simp
    · exact h.size_ok
    · exact h.dq_lt
    · intro j hj
      simp at hj
    · exact h.dq_nodup
    · simp
    · exact h.dq_sorted
    · simp
    · intro e he m hm
      simp at he
    · intro e he hbe
      exfalso
      have hin := h.be_in_sq e he hbe
      obtain ⟨x0, hx0, hx0s⟩ := List.mem_map.mp hin
      have hstale := hall x0 hx0
      rw [hx0s] at hstale
      have : (e.1, e.2) ∈ p.messages := by simpa using he
      rw [mlookup_eq_some_of_mem h.keys_nodup this] at hstale
      cases hstale
    · have := h.dq_bound
      simpa using this
    · simp
  | some x =>
    obtain ⟨id, m⟩ := x
    rw [shed_eq_some hres]
    apply pool_inv_maybe_trim
    obtain ⟨hml, hms, hsz, dead, s, hsq, hdead⟩ :=
      shedLoop_some_spec p.size_queue p.messages p.size_bytes hres
    have hsq_sub : List.Sublist
        (shedLoop p.size_queue p.messages p.size_bytes).sq p.size_queue := by
      have h1 := List.sublist_append_right dead
        ((s, id) :: (shedLoop p.size_queue p.messages p.size_bytes).sq)
      have h2 := List.Sublist.trans (List.sublist_cons_self (s, id)
        (shedLoop p.size_queue p.messages p.size_bytes).sq) h1
      rw [← hsq] at h2
      exact h2
    rw [hms, hsz]
    have hrem := pool_inv_core_remove h hml
    have hkeys : (mremove p.messages id).map Prod.fst ⊆
        p.messages.map Prod.fst := ((mremove_sublist _ _).map Prod.fst).subset
    refine ⟨?_, ?_, ?_, ?_, ?_, ?_, ?_, ?_, ?_, ?_, ?_, ?_, ?_, ?_, ?_, ?_⟩
    · exact hrem.keys_nodup
    · exact hrem.keys_lt
    · exact h.ph_nodup
    · exact h.ph_lt
    · exact hrem.ph_fresh_store
    · exact h.ph_fresh_dq
    · intro j hj hc
      exact h.ph_fresh_sq j hj ((hsq_sub.map Prod.snd).subset hc)
    · exact hrem.size_ok
    · exact h.dq_lt
    · intro j hj
      exact h.sq_lt j ((hsq_sub.map Prod.snd).subset hj)
    · exact h.dq_nodup
    · exact nodup_snd_of_sublist hsq_sub h.sq_nodup
    · exact h.dq_sorted
    · exact h.sq_sorted.sublist hsq_sub
    · intro e he m' hm'
      rw [mlookup_mremove] at hm'
      by_cases hej : e.2 = id
      · rw [if_pos hej] at hm'
        cases hm'
      · rw [if_neg hej] at hm'
        exact h.sq_live e (hsq_sub.subset he) m' hm'
    · intro e he hbe
      have he' := (mremove_sublist _ _).subset he
      have hne : e.1 ≠ id := (mem_mremove_iff.mp (by simpa using he)).2
      have hin := h.be_in_sq e he' hbe
      obtain ⟨x0, hx0, hx0s⟩ := List.mem_map.mp hin
      rw [hsq] at hx0
      rcases List.mem_append.mp hx0 with hx0' | hx0'
      · exfalso
        have hstale := hdead x0 hx0'
        rw [hx0s] at hstale
        rw [mlookup_eq_some_of_mem h.keys_nodup (by simpa using he')] at hstale
        cases hstale
      · rcases List.mem_cons.mp hx0' with rfl | hx0''
        · exact absurd hx0s.symm (by simpa using hne)
        · exact List.mem_map.mpr ⟨x0, hx0'', hx0s⟩

/-- Every reachable pool state satisfies the full invariant. -/
theorem reach_inv {p : MessagePool} (h : Reachable p) : PoolInv p := by
  induction h with
  | init =>
    refine ⟨⟨?_, ?_, ?_, ?_, ?_, ?_, ?_, ?_, ?_, ?_, ?_, ?_, ?_, ?_, ?_, ?_⟩,
      ?_, ?_⟩ <;> simp [MessagePool.default, sumSizes]
  | insert_inbound msg _ ih =>
    rw [insert_inbound_eq]
    exact pool_inv_insert_impl ih msg _
  | insert_outbound_request req now ttl _ _ ih =>
    rw [insert_outbound_request_eq]
    exact pool_inv_insert_impl ih req _
  | insert_outbound_response rep _ _ ih =>
    rw [insert_outbound_response_eq]
    exact pool_inv_insert_impl ih rep _
  | reserve _ ih => exact pool_inv_reserve ih
  | fulfill id msg _ hph hrep ih => exact pool_inv_fulfill ih hph hrep
  | take r _ ih => exact pool_inv_take ih r
  | expire now _ ih => exact pool_inv_expire ih now
  | shed _ ih => exact pool_inv_shed ih

end MessagePoolModel

namespace MessagePoolModel

/-! ### Recorded deadlines and expiration characterisation -/

theorem recordedDeadline_iff {p : MessagePool}
    (hnd : (p.deadline_queue.map Prod.snd).Nodup) {d id : Nat} :
    p.recordedDeadline id = some d ↔ (d, id) ∈ p.deadline_queue := by
  constructor
  · intro h
    simp only [MessagePool.recordedDeadline, Option.map_eq_some'] at h
    obtain ⟨e, hfind, hfst⟩ := h
    have hmem := List.mem_of_find?_eq_some hfind
    have hsnd := List.find?_some hfind
    simp only [beq_iff_eq] at hsnd
    have : e = (d, id) := by
      cases e
      simp_all
    rwa [this] at hmem
  · intro h
    simp only [MessagePool.recordedDeadline, Option.map_eq_some']
    cases hfind : p.deadline_queue.find? (fun e => e.2 == id) with
    | none =>
      have := List.find?_eq_none.mp hfind (d, id) h
      simp at this
    | some e =>
      refine ⟨e, rfl, ?_⟩
      have hmem := List.mem_of_find?_eq_some hfind
      have hsnd := List.find?_some hfind
      simp only [beq_iff_eq] at hsnd
      have : e = (d, id) := by
        have h2 := List.inj_on_of_nodup_map hnd hmem h
        apply h2
        simpa using hsnd
      rw [this]

theorem recordedDeadline_none_iff {p : MessagePool} {id : Nat} :
    p.recordedDeadline id = none ↔ id ∉ p.deadline_queue.map Prod.snd := by
  simp only [MessagePool.recordedDeadline, Option.map_eq_none',
    List.find?_eq_none]
  constructor
  · intro h hc
    obtain ⟨e, he, hsnd⟩ := List.mem_map.mp hc
    have := h e he
    simp [hsnd] at this
  · intro h e he
    simp only [beq_iff_eq]
    intro hc
    exact h (List.mem_map.mpr ⟨e, he, hc⟩)

/-- Every entry of the expired list corresponds to a deadline-queue entry
with deadline `< now` and to a stored message; and conversely. -/
theorem mem_expire_ex_iff {p : MessagePool} (h : PoolInv p) (now : Nat)
    {id : Nat} {m : Message} :
    (id, m) ∈ (p.expire_messages now).2 ↔
      ((id, m) ∈ p.messages ∧
        ∃ d, (d, id) ∈ p.deadline_queue ∧ d < now) := by
  cases hdq : p.deadline_queue with
  | nil =>
    rw [expire_eq_nil now hdq]
    simp [hdq]
  | cons x rest =>
    rw [expire_eq_cons now hdq]
    have hnd : ((x :: rest).map Prod.snd).Nodup := by
      rw [← hdq]
      exact h.dq_nodup
    have hsorted : (x :: rest).Pairwise (fun a b => dqLEb a b = true) := by
      rw [← hdq]
      exact h.dq_sorted
    rw [expireLoop_ex now (x :: rest) p.messages p.size_bytes hnd]
    simp only [List.mem_filterMap]
    constructor
    · rintro ⟨e, he, hfe⟩
      simp only [Option.map_eq_some'] at hfe
      obtain ⟨mm, hml, heq⟩ := hfe
      obtain ⟨h1, h2⟩ : e.2 = id ∧ mm = m := by
        cases heq
        exact ⟨rfl, rfl⟩
      subst h1
      subst h2
      have := (mem_takeWhile_iff_sorted hsorted).mp he
      refine ⟨mem_of_mlookup_eq_some hml, e.1, ?_, by simpa using this.2⟩
      simpa using this.1
    · rintro ⟨hmem, d, hd, hlt⟩
      refine ⟨(d, id), ?_, ?_⟩
      · apply (mem_takeWhile_iff_sorted hsorted).mpr
        exact ⟨hd, by simpa using hlt⟩
      · simp only [Option.map_eq_some']
        exact ⟨m, mlookup_eq_some_of_mem h.keys_nodup hmem, rfl⟩

/-- Characterisation of the store after expiration. -/
theorem mem_expire_messages_iff {p : MessagePool} (h : PoolInv p) (now : Nat)
    {id : Nat} {m : Message} :
    (id, m) ∈ (p.expire_messages now).1.messages ↔
      ((id, m) ∈ p.messages ∧
        ¬∃ d, (d, id) ∈ p.deadline_queue ∧ d < now) := by
  cases hdq : p.deadline_queue with
  | nil =>
    rw [expire_eq_nil now hdq]
    simp [hdq]
  | cons x rest =>
    rw [expire_eq_cons now hdq]
    rw [maybe_trim_messages]
    have hsorted : (x :: rest).Pairwise (fun a b => dqLEb a b = true) := by
      rw [← hdq]
      exact h.dq_sorted
    rw [mem_expireLoop_ms now (x :: rest) p.messages p.size_bytes id m]
    constructor
    · rintro ⟨hmem, hall⟩
      refine ⟨hmem, ?_⟩
      rintro ⟨d, hd, hlt⟩
      have : (d, id) ∈ (x :: rest).takeWhile
          (fun e => decide (e.1 < now)) := by
        apply (mem_takeWhile_iff_sorted hsorted).mpr
        exact ⟨hd, by simpa using hlt⟩
      exact hall (d, id) this rfl
    · rintro ⟨hmem, hnone⟩
      refine ⟨hmem, ?_⟩
      intro e he hc
      apply hnone
      have hmt := (mem_takeWhile_iff_sorted hsorted).mp he
      refine ⟨e.1, ?_, by simpa using hmt.2⟩
      have hmem2 : ((e.1, e.2) : Nat × Nat) ∈ x :: rest := by
        simpa using hmt.1
      rwa [hc] at hmem2

/-- After `expire_messages`, every remaining deadline-queue entry has
deadline `≥ now`. -/
theorem expire_dq_ge {p : MessagePool} (h : PoolInv p) (now : Nat) :
    ∀ x ∈ (p.expire_messages now).1.deadline_queue, now ≤ x.1 := by
  cases hdq : p.deadline_queue with
  | nil =>
    rw [expire_eq_nil now hdq]
    intro x hx
    rw [hdq] at hx
    cases hx
  | cons y rest =>
    rw [expire_eq_cons now hdq]
    intro x hx
    have hsub := maybe_trim_dq_sublist
      { p with
        deadline_queue := (expireLoop now (y :: rest) p.messages
          p.size_bytes).dq
        messages := (expireLoop now (y :: rest) p.messages p.size_bytes).ms
        size_bytes := (expireLoop now (y :: rest) p.messages p.size_bytes).sz }
    have hx' := hsub.subset hx
    simp only at hx'
    rw [expireLoop_dq now (y :: rest) p.messages p.size_bytes] at hx'
    have hsorted : (y :: rest).Pairwise (fun a b => dqLEb a b = true) := by
      rw [← hdq]
      exact h.dq_sorted
    exact dropWhile_deadlines_ge hsorted x hx'

/-- A second expiration at the same time returns nothing. -/
theorem expire_twice_empty {p : MessagePool} (h : PoolInv p) (now : Nat) :
    ((p.expire_messages now).1.expire_messages now).2 = [] := by
  have hge := expire_dq_ge h now
  cases hdq : (p.expire_messages now).1.deadline_queue with
  | nil => rw [expire_eq_nil now hdq]
  | cons y rest =>
    rw [expire_eq_cons now hdq]
    have hy : now ≤ y.1 := by
      apply hge
      rw [hdq]
      exact List.mem_cons_self _ _
    obtain ⟨d, id⟩ := y
    rw [expireLoop_cons_stop id rest _ _ hy]

end MessagePoolModel

namespace MessagePoolModel

/-! ### Shedding characterisation -/

theorem shed_spec_none {p : MessagePool} (h : PoolInv p)
    (hres : p.shed_largest_message.2 = none) :
    p.shed_largest_message.1.messages = p.messages ∧
      ∀ e ∈ p.messages, e.2.isBestEffort = false := by
  cases hlres : (shedLoop p.size_queue p.messages p.size_bytes).res with
  | some x =>
    rw [shed_eq_some hlres] at hres
    cases hres
  | none =>
    obtain ⟨heq, hall⟩ :=
      shedLoop_none_spec p.size_queue p.messages p.size_bytes hlres
    rw [shed_eq_none hlres, heq]
    refine ⟨rfl, ?_⟩
    intro e he
    by_contra hbe
    have hbe' : e.2.isBestEffort = true := by
      cases hc : e.2.isBestEffort
      · exact absurd hc hbe
      · rfl
    have hin := h.be_in_sq e he hbe'
    obtain ⟨x0, hx0, hx0s⟩ := List.mem_map.mp hin
    have hstale := hall x0 hx0
    rw [hx0s] at hstale
    rw [mlookup_eq_some_of_mem h.keys_nodup (by simpa using he)] at hstale
    cases hstale

theorem shed_spec_some {p : MessagePool} (h : PoolInv p) {id : Nat}
    {m : Message} (hres : p.shed_largest_message.2 = some (id, m)) :
    mlookup p.messages id = some m ∧ m.isBestEffort = true ∧
      (∀ j mm, (j, mm) ∈ p.shed_largest_message.1.messages ↔
        ((j, mm) ∈ p.messages ∧ j ≠ id)) ∧
      (∀ e ∈ p.messages, e.2.isBestEffort = true → e.2.size ≤ m.size) ∧
      p.shed_largest_message.1.size_queue.length < p.size_queue.length := by
  cases hlres : (shedLoop p.size_queue p.messages p.size_bytes).res with
  | none =>
    rw [shed_eq_none hlres] at hres
    cases hres
  | some x =>
    rw [shed_eq_some hlres] at hres ⊢
    obtain hx : x = (id, m) := by
      cases hres
      rfl
    subst hx
    obtain ⟨hml, hms, hsz, dead, s, hsq, hdead⟩ :=
      shedLoop_some_spec p.size_queue p.messages p.size_bytes hlres
    have hentry : ((s, id) : Nat × Nat) ∈ p.size_queue := by
      rw [hsq]
      exact List.mem_append.mpr (Or.inr (List.mem_cons_self _ _))
    have hsm := h.sq_live (s, id) hentry m hml
    have hbe : m.isBestEffort = true := hsm.1
    have hmsize : m.size = s := hsm.2
    refine ⟨hml, hbe, ?_, ?_, ?_⟩
    · intro j mm
      rw [maybe_trim_messages]
      simp only [hms]
      exact mem_mremove_iff
    · intro e he hebe
      have hin := h.be_in_sq e he hebe
      obtain ⟨x0, hx0, hx0s⟩ := List.mem_map.mp hin
      have hlive : mlookup p.messages x0.2 = some e.2 := by
        rw [hx0s]
        exact mlookup_eq_some_of_mem h.keys_nodup (by simpa using he)
      have hx0live := h.sq_live x0 hx0 e.2 hlive
      rw [hsq] at hx0
      rcases List.mem_append.mp hx0 with hx0' | hx0'
      · exfalso
        rw [hdead x0 hx0'] at hlive
        cases hlive
      · rcases List.mem_cons.mp hx0' with rfl | hx0'
        · have : e.2 = m := by
            rw [hml] at hlive
            cases hlive
            rfl
          rw [this]
        · have hsorted := h.sq_sorted
          rw [hsq] at hsorted
          have hpair := (List.pairwise_append.mp hsorted).2.1
          have hrel := (List.pairwise_cons.mp hpair).1 x0 hx0'
          simp only [sqLEb, Bool.or_eq_true, decide_eq_true_eq,
            Bool.and_eq_true, beq_iff_eq] at hrel
          have := hx0live.2
          omega
    · have hsub := maybe_trim_sq_sublist
        { p with
          size_queue := (shedLoop p.size_queue p.messages p.size_bytes).sq
          messages := (shedLoop p.size_queue p.messages p.size_bytes).ms
          size_bytes := (shedLoop p.size_queue p.messages p.size_bytes).sz }
      have h1 := hsub.length_le
      simp only at h1
      have h3 : (shedLoop p.size_queue p.messages p.size_bytes).sq.length <
          p.size_queue.length := by
        conv_rhs => rw [hsq]
        simp only [List.length_append, List.length_cons]
        omega
      exact Nat.lt_of_le_of_lt h1 h3

end MessagePoolModel

namespace MessagePoolModel

/-! ### Repeated shedding -/

theorem shedAllAux_zero (p : MessagePool) : shedAllAux 0 p = (p, []) := rfl

theorem shedAllAux_succ_some {fuel : Nat} {p p' : MessagePool}
    {x : Nat × Message} (h : p.shed_largest_message = (p', some x)) :
    shedAllAux (fuel + 1) p = ((shedAllAux fuel p').1, x :: (shedAllAux fuel p').2) := by
  conv_lhs => rw [shedAllAux]
  rw [h]

theorem shedAllAux_succ_none {fuel : Nat} {p p' : MessagePool}
    (h : p.shed_largest_message = (p', none)) :
    shedAllAux (fuel + 1) p = (p', []) := by
  conv_lhs => rw [shedAllAux]
  rw [h]

theorem shedAllAux_spec : ∀ (fuel : Nat) (p : MessagePool), PoolInv p →
    p.size_queue.length ≤ fuel →
    ((∀ x : Nat × Message, x ∈ (shedAllAux fuel p).2 ↔
        (x ∈ p.messages ∧ x.2.isBestEffort = true)) ∧
      ((shedAllAux fuel p).2.map Prod.fst).Nodup ∧
      ((shedAllAux fuel p).2.map (fun x => x.2.size)).Pairwise
        (fun a b => b ≤ a)) := by
  intro fuel
  induction fuel with
  | zero =>
    intro p h hf
    have hsq : p.size_queue = [] := List.length_eq_zero.mp (by omega)
    rw [shedAllAux_zero]
    refine ⟨?_, by simp, by simp⟩
    intro x
    simp only [List.not_mem_nil, false_iff, not_and]
    intro hx hbe
    have := h.be_in_sq x hx hbe
    rw [hsq] at this
    cases this
  | succ fuel ih =>
    intro p h hf
    cases hres : p.shed_largest_message with
    | mk p' opt =>
      cases opt with
      | none =>
        rw [shedAllAux_succ_none hres]
        have hres2 : p.shed_largest_message.2 = none := by rw [hres]
        obtain ⟨_, hall⟩ := shed_spec_none h hres2
        refine ⟨?_, by simp, by simp⟩
        intro x
        simp only [List.not_mem_nil, false_iff, not_and]
        intro hx hbe
        rw [hall x hx] at hbe
        cases hbe
      | some x0 =>
        obtain ⟨id, m⟩ := x0
        rw [shedAllAux_succ_some hres]
        have hres2 : p.shed_largest_message.2 = some (id, m) := by rw [hres]
        obtain ⟨hml, hbe, hmem_iff, hmax, hlen⟩ := shed_spec_some h hres2
        have hp' : p.shed_largest_message.1 = p' := by rw [hres]
        have hinv' : PoolInv p' := by
          rw [← hp']
          exact pool_inv_shed h
        have hf' : p'.size_queue.length ≤ fuel := by
          rw [← hp']
          rw [hp'] at hlen ⊢
          omega
        obtain ⟨ih_mem, ih_nodup, ih_sorted⟩ := ih p' hinv' hf'
        rw [hp'] at hmem_iff
        constructor
        · intro x
          simp only [List.mem_cons]
          constructor
          · rintro (rfl | hx)
            · exact ⟨mem_of_mlookup_eq_some hml, hbe⟩
            · obtain ⟨hx1, hx2⟩ := (ih_mem x).mp hx
              obtain ⟨hx3, _⟩ := (hmem_iff x.1 x.2).mp (by simpa using hx1)
              exact ⟨by simpa using hx3, hx2⟩
          · rintro ⟨hx1, hx2⟩
            by_cases hxid : x.1 = id
            · left
              have : mlookup p.messages x.1 = some x.2 :=
                mlookup_eq_some_of_mem h.keys_nodup (by simpa using hx1)
              rw [hxid, hml] at this
              obtain hm2 : x.2 = m := by
                cases this
                rfl
              obtain ⟨a, b⟩ := x
              simp only at hxid hm2
              rw [hxid, hm2]
            · right
              apply (ih_mem x).mpr
              refine ⟨?_, hx2⟩
              have := (hmem_iff x.1 x.2).mpr ⟨by simpa using hx1, hxid⟩
              simpa using this
        constructor
        · simp only [List.map_cons, List.nodup_cons]
          refine ⟨?_, ih_nodup⟩
          intro hc
          obtain ⟨x, hx, hxs⟩ := List.mem_map.mp hc
          obtain ⟨hx1, _⟩ := (ih_mem x).mp hx
          obtain ⟨_, hne⟩ := (hmem_iff x.1 x.2).mp (by simpa using hx1)
          exact hne hxs
        · simp only [List.map_cons]
          refine List.pairwise_cons.mpr ⟨?_, ih_sorted⟩
          intro sz hsz
          obtain ⟨x, hx, hxs⟩ := List.mem_map.mp hsz
          obtain ⟨hx1, hx2⟩ := (ih_mem x).mp hx
          obtain ⟨hx3, _⟩ := (hmem_iff x.1 x.2).mp (by simpa using hx1)
          have := hmax (x.1, x.2) (by simpa using hx3) (by simpa using hx2)
          simpa [← hxs] using this

end MessagePoolModel

namespace MessagePoolModel

/-! ### The claims -/

/-- C5: after every sequence of pool operations, `len()` equals the number
of messages currently stored, and the running byte-size total equals the
sum of the recomputed byte sizes of all currently stored messages. -/
theorem claim_C5 (p : MessagePool) (h : Reachable p) :
    p.len = p.messages.length ∧ p.size_bytes = p.calculate_size_bytes := by
  have hi := reach_inv h
  refine ⟨rfl, ?_⟩
  rw [hi.size_ok]
  rfl

theorem claim_C5_witness :
    (MessagePool.default.insert_inbound ⟨MsgKind.request, some 5, 10⟩).1.len =
      (MessagePool.default.insert_inbound
        ⟨MsgKind.request, some 5, 10⟩).1.messages.length ∧
    (MessagePool.default.insert_inbound
        ⟨MsgKind.request, some 5, 10⟩).1.size_bytes =
      (MessagePool.default.insert_inbound
        ⟨MsgKind.request, some 5, 10⟩).1.calculate_size_bytes :=
  claim_C5 _ (Reachable.insert_inbound _ Reachable.init)

/-- C9: after every pool operation, each priority queue's length is at
most `2 * len + 2` (compaction on removal paths keeps the lazy queues
within a constant factor of the pool size; insertion never compacts but
also never breaks the bound). -/
theorem claim_C9 (p : MessagePool) (h : Reachable p) :
    p.deadline_queue.length ≤ 2 * p.len + 2 ∧
    p.size_queue.length ≤ 2 * p.len + 2 := by
  have hi := reach_inv h
  exact ⟨hi.dq_bound, hi.sq_bound⟩

theorem claim_C9_witness :
    (MessagePool.default.insert_inbound
        ⟨MsgKind.request, some 5, 10⟩).1.deadline_queue.length ≤
      2 * (MessagePool.default.insert_inbound
        ⟨MsgKind.request, some 5, 10⟩).1.len + 2 ∧
    (MessagePool.default.insert_inbound
        ⟨MsgKind.request, some 5, 10⟩).1.size_queue.length ≤
      2 * (MessagePool.default.insert_inbound
        ⟨MsgKind.request, some 5, 10⟩).1.len + 2 :=
  claim_C9 _ (Reachable.insert_inbound _ Reachable.init)

/-- C8: the identifier counter starts at zero; every identifier-producing
operation (the three insertion entry points and placeholder reservation)
returns the current counter value and increments it; and on every
reachable state all identifiers in the store, the placeholder set and both
priority queues are strictly below the counter, so identifiers are never
reused and never collide. -/
theorem claim_C8 :
    MessagePool.default.next_message_id = 0 ∧
    (∀ (p : MessagePool) (msg : Message),
      (p.insert_inbound msg).2 = p.next_message_id ∧
      (p.insert_inbound msg).1.next_message_id = p.next_message_id + 1) ∧
    (∀ (p : MessagePool) (req : Message) (now ttl : Nat),
      (p.insert_outbound_request req now ttl).2 = p.next_message_id ∧
      (p.insert_outbound_request req now ttl).1.next_message_id =
        p.next_message_id + 1) ∧
    (∀ (p : MessagePool) (rep : Message),
      (p.insert_outbound_response rep).2 = p.next_message_id ∧
      (p.insert_outbound_response rep).1.next_message_id =
        p.next_message_id + 1) ∧
    (∀ p : MessagePool,
      p.insert_inbound_timeout_response.2 = p.next_message_id ∧
      p.insert_inbound_timeout_response.1.next_message_id =
        p.next_message_id + 1) ∧
    (∀ p : MessagePool, Reachable p → ∀ id : Nat,
      (id ∈ p.messages.map Prod.fst ∨ id ∈ p.placeholders ∨
        id ∈ p.deadline_queue.map Prod.snd ∨
        id ∈ p.size_queue.map Prod.snd) →
      id < p.next_message_id) := by
  refine ⟨rfl, fun p msg => ⟨rfl, rfl⟩, fun p req now ttl => ⟨rfl, rfl⟩,
    fun p rep => ⟨rfl, rfl⟩, fun p => ⟨rfl, rfl⟩, ?_⟩
  intro p h id hmem
  have hi := reach_inv h
  rcases hmem with hm | hm | hm | hm
  exacts [hi.keys_lt id hm, hi.ph_lt id hm, hi.dq_lt id hm, hi.sq_lt id hm]

theorem claim_C8_witness :
    (0 : Nat) < (MessagePool.default.insert_inbound
      ⟨MsgKind.request, some 5, 10⟩).1.next_message_id :=
  claim_C8.2.2.2.2.2 _ (Reachable.insert_inbound _ Reachable.init) 0
    (Or.inl (by decide))

/-- C6: `get_request` returns the stored message iff it exists and is a
request, `get_response` iff it exists and is a response; `take` on an
absent identifier or on a reference whose kind does not match the stored
message returns nothing and leaves the entire pool state unchanged. -/
theorem claim_C6 :
    (∀ (p : MessagePool) (id : Nat) (m : Message),
      p.get_request id = some m ↔
        (mlookup p.messages id = some m ∧ m.kind = MsgKind.request)) ∧
    (∀ (p : MessagePool) (id : Nat) (m : Message),
      p.get_response id = some m ↔
        (mlookup p.messages id = some m ∧ m.kind = MsgKind.response)) ∧
    (∀ (p : MessagePool) (r : MessagePoolReference),
      mlookup p.messages r.id = none → p.take r = (p, none)) ∧
    (∀ (p : MessagePool) (i : Nat) (m : Message),
      mlookup p.messages i = some m →
      (m.kind = MsgKind.response →
        p.take (.request i) = (p, none)) ∧
      (m.kind = MsgKind.request →
        p.take (.response i) = (p, none))) := by
  refine ⟨?_, ?_, fun p r hl => take_eq_of_none hl,
    fun p i m hl => ⟨fun hk => take_eq_request_mismatch hl hk,
      fun hk => take_eq_response_mismatch hl hk⟩⟩
  · intro p id m
    unfold MessagePool.get_request
    cases hl : mlookup p.messages id with
    | none => simp
    | some m0 =>
      obtain ⟨mk, md, msz⟩ := m0
      cases mk with
      | request =>
        show some (⟨MsgKind.request, md, msz⟩ : Message) = some m ↔ _
        constructor
        · intro hsome
          cases hsome
          exact ⟨rfl, rfl⟩
        · rintro ⟨hml, _⟩
          exact hml
      | response =>
        show (none : Option Message) = some m ↔ _
        constructor
        · intro hsome
          cases hsome
        · rintro ⟨hml, hkind⟩
          cases hml
          simp at hkind
  · intro p id m
    unfold MessagePool.get_response
    cases hl : mlookup p.messages id with
    | none => simp
    | some m0 =>
      obtain ⟨mk, md, msz⟩ := m0
      cases mk with
      | response =>
        show some (⟨MsgKind.response, md, msz⟩ : Message) = some m ↔ _
        constructor
        · intro hsome
          cases hsome
          exact ⟨rfl, rfl⟩
        · rintro ⟨hml, _⟩
          exact hml
      | request =>
        show (none : Option Message) = some m ↔ _
        constructor
        · intro hsome
          cases hsome
        · rintro ⟨hml, hkind⟩
          cases hml
          simp at hkind

theorem claim_C6_witness :
    MessagePool.default.take (.request 0) = (MessagePool.default, none) :=
  claim_C6.2.2.1 MessagePool.default (.request 0) (by decide)

/-- C10: there is a reachable pool state and a time `now` for which
`has_expired_deadlines now` is true while `expire_messages now` returns
the empty list and removes no message: a stale deadline-queue entry left
behind by shedding alone makes `has_expired_deadlines` report true. -/
theorem claim_C10 :
    ∃ (p : MessagePool) (now : Nat), Reachable p ∧
      p.has_expired_deadlines now = true ∧
      (p.expire_messages now).2 = [] ∧
      (p.expire_messages now).1.messages = p.messages := by
  refine ⟨(MessagePool.default.insert_inbound
      ⟨MsgKind.request, some 5, 10⟩).1.shed_largest_message.1, 10,
    Reachable.shed (Reachable.insert_inbound _ Reachable.init), ?_, ?_, ?_⟩
  · decide
  · decide
  · decide

end MessagePoolModel

namespace MessagePoolModel

/-- C7: fulfilling a placeholder is fatal (modelled as `none`) unless the
message is a best-effort response; under that precondition the message is
stored under the placeholder's identifier, its size is added to the
running total, an entry is added to the load-shedding queue but the
deadline queue is untouched, the message is retrievable via
`get_response`, and it is never returned by `expire_messages`. -/
theorem claim_C7 (p : MessagePool) (h : Reachable p) (id : Nat)
    (hph : id ∈ p.placeholders) (msg : Message) :
    (¬(msg.kind = MsgKind.response ∧ msg.deadline.isSome = true) →
      p.replace_inbound_timeout_response id msg = none) ∧
    (∀ p', p.replace_inbound_timeout_response id msg = some p' →
      ((msg.kind = MsgKind.response ∧ msg.deadline.isSome = true) ∧
        p'.messages = p.messages ++ [(id, msg)] ∧
        p'.size_bytes = p.size_bytes + msg.size ∧
        p'.deadline_queue = p.deadline_queue ∧
        id ∈ p'.size_queue.map Prod.snd ∧
        p'.get_response id = some msg ∧
        (∀ now : Nat, ∀ x ∈ (p'.expire_messages now).2, x.1 ≠ id))) := by
  have hi := reach_inv h
  refine ⟨replace_eq_none, ?_⟩
  intro p' hrep
  have hk : msg.kind = MsgKind.response ∧ msg.deadline.isSome = true := by
    by_contra hc
    rw [replace_eq_none hc] at hrep
    cases hrep
  obtain ⟨hkind, hdl⟩ := hk
  obtain ⟨d, hd⟩ := Option.isSome_iff_exists.mp hdl
  have hinv' : PoolInv p' := pool_inv_fulfill hi hph hrep
  rw [replace_eq_some hkind hd] at hrep
  have hfresh : id ∉ p.messages.map Prod.fst := hi.ph_fresh_store id hph
  have hdqfresh : id ∉ p.deadline_queue.map Prod.snd := hi.ph_fresh_dq id hph
  cases hrep
  refine ⟨⟨hkind, hdl⟩, rfl, rfl, rfl, ?_, ?_, ?_⟩
  · exact ((map_snd_pushBy_perm sqLEb (msg.size, id)
      p.size_queue).mem_iff).mpr (List.mem_cons_self _ _)
  · unfold MessagePool.get_response
    rw [show (mlookup (p.messages ++ [(id, msg)]) id) = some msg from
      mlookup_append_self hfresh]
    show (match msg.kind with
      | MsgKind.response => some msg
      | MsgKind.request => none) = some msg
    rw [hkind]
  · intro now x hx
    obtain ⟨xa, xm⟩ := x
    intro hc
    simp only at hc
    subst hc
    have := (mem_expire_ex_iff hinv' now).mp hx
    obtain ⟨_, d', hd', _⟩ := this
    exact hdqfresh (List.mem_map.mpr ⟨(d', xa), hd', rfl⟩)

theorem claim_C7_witness :
    MessagePool.default.insert_inbound_timeout_response.1.replace_inbound_timeout_response
      0 ⟨MsgKind.request, none, 5⟩ = none :=
  (claim_C7 _ (Reachable.reserve Reachable.init) 0 (by decide)
    ⟨MsgKind.request, none, 5⟩).1 (by decide)

/-- C1: `expire_messages now` removes and returns exactly those stored
messages whose recorded deadline (the deadline-queue entry captured at
insertion) is strictly below `now`; every stored message whose recorded
deadline is `≥ now` or that has no recorded deadline (the no-expiry
sentinel) remains in the pool; and a second call with the same `now`
returns the empty list. -/
theorem claim_C1 (p : MessagePool) (h : Reachable p) (now : Nat) :
    (∀ (id : Nat) (m : Message),
      (id, m) ∈ (p.expire_messages now).2 ↔
        ((id, m) ∈ p.messages ∧
          ∃ d, p.recordedDeadline id = some d ∧ d < now)) ∧
    (∀ (id : Nat) (m : Message),
      (id, m) ∈ (p.expire_messages now).1.messages ↔
        ((id, m) ∈ p.messages ∧
          ¬∃ d, p.recordedDeadline id = some d ∧ d < now)) ∧
    ((p.expire_messages now).1.expire_messages now).2 = [] := by
  have hi := reach_inv h
  refine ⟨?_, ?_, expire_twice_empty hi now⟩
  · intro id m
    rw [mem_expire_ex_iff hi now]
    constructor
    · rintro ⟨hmem, d, hd, hlt⟩
      exact ⟨hmem, d, (recordedDeadline_iff hi.dq_nodup).mpr hd, hlt⟩
    · rintro ⟨hmem, d, hd, hlt⟩
      exact ⟨hmem, d, (recordedDeadline_iff hi.dq_nodup).mp hd, hlt⟩
  · intro id m
    rw [mem_expire_messages_iff hi now]
    constructor
    · rintro ⟨hmem, hno⟩
      refine ⟨hmem, ?_⟩
      rintro ⟨d, hd, hlt⟩
      exact hno ⟨d, (recordedDeadline_iff hi.dq_nodup).mp hd, hlt⟩
    · rintro ⟨hmem, hno⟩
      refine ⟨hmem, ?_⟩
      rintro ⟨d, hd, hlt⟩
      exact hno ⟨d, (recordedDeadline_iff hi.dq_nodup).mpr hd, hlt⟩

theorem claim_C1_witness :
    ((((MessagePool.default.insert_inbound
        ⟨MsgKind.request, some 5, 10⟩).1.insert_inbound
        ⟨MsgKind.request, some 5, 10⟩).1.expire_messages 6).1.expire_messages
        6).2 = [] :=
  (claim_C1 _ (Reachable.insert_inbound _
    (Reachable.insert_inbound _ Reachable.init)) 6).2.2

end MessagePoolModel

namespace MessagePoolModel

/-- C2 counterexample: two best-effort requests with the same deadline 5
(ids 0 and 1) are returned by `expire_messages 6` in id order `[1, 0]` —
identifier *descending*, not ascending as the claim states: the max-heap
`BinaryHeap<(Reverse<CoarseTime>, MessageId)>` pops the largest tuple, so
equal deadlines yield the largest id first. -/
theorem claim_C2_counterexample :
    ((((MessagePool.default.insert_inbound
        ⟨MsgKind.request, some 5, 10⟩).1.insert_inbound
        ⟨MsgKind.request, some 5, 10⟩).1.expire_messages 6).2.map Prod.fst =
      [1, 0]) ∧
    (((MessagePool.default.insert_inbound
        ⟨MsgKind.request, some 5, 10⟩).1.insert_inbound
        ⟨MsgKind.request, some 5, 10⟩).1.recordedDeadline 0 = some 5) ∧
    (((MessagePool.default.insert_inbound
        ⟨MsgKind.request, some 5, 10⟩).1.insert_inbound
        ⟨MsgKind.request, some 5, 10⟩).1.recordedDeadline 1 = some 5) ∧
    ¬ ((((MessagePool.default.insert_inbound
        ⟨MsgKind.request, some 5, 10⟩).1.insert_inbound
        ⟨MsgKind.request, some 5, 10⟩).1.expire_messages 6).2.Pairwise
      (fun a b => a.1 < b.1)) := by
  refine ⟨?_, ?_, ?_, ?_⟩
  · decide
  · decide
  · decide
  · decide

/-- C2 (amended): the list returned by `expire_messages now` is ordered by
increasing recorded deadline, and entries with equal recorded deadlines
are ordered by identifier *descending*; the order is a function of the
(deadline, identifier) pairs, hence deterministic. -/
theorem claim_C2 (p : MessagePool) (h : Reachable p) (now : Nat) :
    (p.expire_messages now).2.Pairwise (fun a b => ∃ da db,
      p.recordedDeadline a.1 = some da ∧ p.recordedDeadline b.1 = some db ∧
      (da < db ∨ (da = db ∧ b.1 < a.1))) := by
  have hi := reach_inv h
  cases hdq : p.deadline_queue with
  | nil =>
    rw [expire_eq_nil now hdq]
    exact List.Pairwise.nil
  | cons x rest =>
    rw [expire_eq_cons now hdq]
    have hnd : ((x :: rest).map Prod.snd).Nodup := by
      rw [← hdq]
      exact hi.dq_nodup
    have hsorted : (x :: rest).Pairwise (fun a b => dqLEb a b = true) := by
      rw [← hdq]
      exact hi.dq_sorted
    rw [expireLoop_ex now (x :: rest) p.messages p.size_bytes hnd]
    apply List.pairwise_filterMap.mpr
    have htake : List.Sublist
        ((x :: rest).takeWhile (fun e => decide (e.1 < now))) (x :: rest) :=
      List.takeWhile_sublist _
    have hsorted' := hsorted.sublist htake
    have hne : ((x :: rest).takeWhile
        (fun e => decide (e.1 < now))).Pairwise (fun a b => a.2 ≠ b.2) :=
      (List.pairwise_map.mp (nodup_snd_of_sublist htake hnd)).imp
        (fun hab => hab)
    refine (hsorted'.and hne).imp_of_mem ?_
    rintro a b ha hb ⟨hle, hab⟩
    intro x1 hx1 y1 hy1
    simp only [Option.mem_def, Option.map_eq_some'] at hx1 hy1
    obtain ⟨ma, hma, hxa⟩ := hx1
    obtain ⟨mb, hmb, hyb⟩ := hy1
    have hamem : (a.1, a.2) ∈ p.deadline_queue := by
      rw [hdq]
      simpa using htake.subset ha
    have hbmem : (b.1, b.2) ∈ p.deadline_queue := by
      rw [hdq]
      simpa using htake.subset hb
    refine ⟨a.1, b.1, ?_, ?_, ?_⟩
    · rw [← hxa]
      exact (recordedDeadline_iff hi.dq_nodup).mpr hamem
    · rw [← hyb]
      exact (recordedDeadline_iff hi.dq_nodup).mpr hbmem
    · rw [← hxa, ← hyb]
      simp only [dqLEb, Bool.or_eq_true, decide_eq_true_eq,
        Bool.and_eq_true, beq_iff_eq] at hle
      simp only
      omega

theorem claim_C2_witness :
    ((((MessagePool.default.insert_inbound
        ⟨MsgKind.request, some 5, 10⟩).1.insert_inbound
        ⟨MsgKind.request, some 5, 10⟩).1.expire_messages 6).2.Pairwise
      (fun a b => ∃ da db,
        (((MessagePool.default.insert_inbound
          ⟨MsgKind.request, some 5, 10⟩).1.insert_inbound
          ⟨MsgKind.request, some 5, 10⟩).1.recordedDeadline a.1 = some da) ∧
        (((MessagePool.default.insert_inbound
          ⟨MsgKind.request, some 5, 10⟩).1.insert_inbound
          ⟨MsgKind.request, some 5, 10⟩).1.recordedDeadline b.1 = some db) ∧
        (da < db ∨ (da = db ∧ b.1 < a.1)))) :=
  claim_C2 _ (Reachable.insert_inbound _
    (Reachable.insert_inbound _ Reachable.init)) 6

/-- C3 counterexample: a guaranteed-response outbound request inserted at
`now = 1000` with TTL `200` gets recorded deadline `1200`, but
`expire_messages 1200` does *not* remove it (expiry requires deadline
strictly below `now`): the expired list is empty and the request is still
stored. It is removed only at `now = 1201`. -/
theorem claim_C3_counterexample :
    (((MessagePool.default.insert_outbound_request
        ⟨MsgKind.request, none, 7⟩ 1000 200).1.expire_messages 1200).2 =
      []) ∧
    (((MessagePool.default.insert_outbound_request
        ⟨MsgKind.request, none, 7⟩ 1000 200).1.expire_messages
        1200).1.messages = [(0, ⟨MsgKind.request, none, 7⟩)]) := by
  exact ⟨by decide, by decide⟩

/-- C3 (amended): inserting a guaranteed-response outbound request
(sentinel deadline) at time `now` records deadline `now + TTL` in the
deadline queue; in the concrete scenario (`now = 1000`, TTL `200`) the
recorded deadline is `1200`, `expire_messages 1199` and `expire_messages
1200` both leave the request present (expiry is strict), and
`expire_messages 1201` removes it. -/
theorem claim_C3 (p : MessagePool) (h : Reachable p) (req : Message)
    (now ttl : Nat) (hdl : req.deadline = none) :
    ((p.insert_outbound_request req now ttl).1.recordedDeadline
      (p.insert_outbound_request req now ttl).2 = some (now + ttl)) ∧
    ((MessagePool.default.insert_outbound_request
      ⟨MsgKind.request, none, 7⟩ 1000 200).1.recordedDeadline 0 =
      some 1200) ∧
    (((MessagePool.default.insert_outbound_request
        ⟨MsgKind.request, none, 7⟩ 1000 200).1.expire_messages
        1199).1.messages = [(0, ⟨MsgKind.request, none, 7⟩)]) ∧
    (((MessagePool.default.insert_outbound_request
        ⟨MsgKind.request, none, 7⟩ 1000 200).1.expire_messages
        1200).1.messages = [(0, ⟨MsgKind.request, none, 7⟩)]) ∧
    (((MessagePool.default.insert_outbound_request
        ⟨MsgKind.request, none, 7⟩ 1000 200).1.expire_messages 1201).2 =
      [(0, ⟨MsgKind.request, none, 7⟩)]) ∧
    (((MessagePool.default.insert_outbound_request
        ⟨MsgKind.request, none, 7⟩ 1000 200).1.expire_messages
        1201).1.messages = []) := by
  have hi := reach_inv h
  refine ⟨?_, by decide, by decide, by decide, by decide, by decide⟩
  have hinv' : PoolInv (p.insert_outbound_request req now ttl).1 := by
    rw [insert_outbound_request_eq]
    exact pool_inv_insert_impl hi req _
  apply (recordedDeadline_iff hinv'.dq_nodup).mpr
  rw [insert_outbound_request_eq, insert_impl_dq, hdl]
  show ((now + ttl, p.next_message_id) : Nat × Nat) ∈
    pushBy dqLEb (now + ttl, p.next_message_id) p.deadline_queue
  exact mem_pushBy.mpr (Or.inl rfl)

theorem claim_C3_witness :
    ((MessagePool.default.insert_outbound_request
      (⟨MsgKind.request, none, 7⟩ : Message) 1000 200).1.recordedDeadline
      (MessagePool.default.insert_outbound_request
        (⟨MsgKind.request, none, 7⟩ : Message) 1000 200).2 =
      some (1000 + 200)) :=
  (claim_C3 MessagePool.default Reachable.init
    ⟨MsgKind.request, none, 7⟩ 1000 200 rfl).1

end MessagePoolModel

namespace MessagePoolModel

/-- C4: repeatedly calling `shed_largest_message` until it returns nothing
removes every best-effort message exactly once, in non-increasing
byte-size order; a single call returns nothing iff no best-effort message
is present; a successful call always removes a best-effort message; and
guaranteed-response messages are never removed by shedding. -/
theorem claim_C4 (p : MessagePool) (h : Reachable p) :
    (∀ x : Nat × Message, x ∈ p.shedAll.2 ↔
      (x ∈ p.messages ∧ x.2.isBestEffort = true)) ∧
    (p.shedAll.2.map Prod.fst).Nodup ∧
    (p.shedAll.2.map (fun x => x.2.size)).Pairwise (fun a b => b ≤ a) ∧
    (p.shed_largest_message.2 = none ↔
      ∀ e ∈ p.messages, e.2.isBestEffort = false) ∧
    (∀ x : Nat × Message, p.shed_largest_message.2 = some x →
      x.2.isBestEffort = true) ∧
    (∀ e ∈ p.messages, e.2.isBestEffort = false →
      e ∈ p.shed_largest_message.1.messages) := by
  have hi := reach_inv h
  obtain ⟨hmem, hnodup, hsorted⟩ :=
    shedAllAux_spec p.size_queue.length p hi (le_refl _)
  refine ⟨hmem, hnodup, hsorted, ?_, ?_, ?_⟩
  · constructor
    · intro hres
      exact (shed_spec_none hi hres).2
    · intro hall
      cases hres : p.shed_largest_message.2 with
      | none => rfl
      | some x =>
        obtain ⟨id, m⟩ := x
        obtain ⟨hml, hbe, _, _, _⟩ := shed_spec_some hi hres
        have := hall (id, m) (mem_of_mlookup_eq_some hml)
        simp only at this
        rw [this] at hbe
        cases hbe
  · intro x hres
    obtain ⟨id, m⟩ := x
    obtain ⟨_, hbe, _, _, _⟩ := shed_spec_some hi hres
    exact hbe
  · intro e he hbe
    cases hres : p.shed_largest_message.2 with
    | none =>
      rw [(shed_spec_none hi hres).1]
      exact he
    | some x =>
      obtain ⟨id, m⟩ := x
      obtain ⟨hml, hmbe, hmem_iff, _, _⟩ := shed_spec_some hi hres
      have hne : e.1 ≠ id := by
        intro hc
        have hlook : mlookup p.messages e.1 = some e.2 :=
          mlookup_eq_some_of_mem hi.keys_nodup (by simpa using he)
        rw [hc, hml] at hlook
        obtain hm : e.2 = m := by
          cases hlook
          rfl
        rw [hm] at hbe
        rw [hbe] at hmbe
        cases hmbe
      have := (hmem_iff e.1 e.2).mpr ⟨by simpa using he, hne⟩
      simpa using this

theorem claim_C4_witness :
    ((MessagePool.default.insert_inbound
      ⟨MsgKind.request, some 5, 10⟩).1.shedAll.2.map Prod.fst).Nodup :=
  (claim_C4 _ (Reachable.insert_inbound _ Reachable.init)).2.1

end MessagePoolModel
